import Mathlib

/-!
Shallow embedding of the core of the `pre_train_etl` repository's
LLM bad-case analysis pipeline, and proofs about it.

Embedded source files:
* `src/analysis/llm_bad_case_analysis/arkts_badcase_pipeline.py`
  (stratified sampling, JSON extraction, judgement validation, consensus,
  per-request judging), and
* `src/analysis/llm_bad_case_analysis/full_data_processing/arkts_full_data_processor.py`
  (resumable full-sweep orchestration over a persisted judgements store).

Modelling conventions:
* Python floats are modelled as exact rationals (`ℚ`); Python ints as `Nat`/`Int`.
  `math.floor(len(items) / total * n)` is modelled as the exact rational floor,
  i.e. Nat division `len * n / total`.
* External collaborators are parameters: `json.loads` is an abstract
  `String → Option Jv` (`none` models a raised `JSONDecodeError`); the
  `random` module's `sample`/`shuffle` are an abstract `RandOps` record;
  `hashlib.sha1(...).hexdigest()` is an abstract `String → String`; the judge
  HTTP endpoint is an abstract oracle producing either a transport error or a
  raw response text.
* Python exceptions swallowed by `try/except` blocks are modelled with
  `Option`: `none` stands for "an exception was raised here".
* Python strings are indexed by code points; slicing like `s[:400]` is
  modelled on `List Char`.
-/

/-! ### JSON values and Python primitives -/

/-- JSON values as produced by `json.loads`. -/
inductive Jv where
  | null : Jv
  | bool : Bool → Jv
  | num : ℚ → Jv
  | str : String → Jv
  | arr : List Jv → Jv
  | obj : List (String × Jv) → Jv
deriving Repr

mutual
/-- Structural equality test on JSON values (Python `==` on parsed JSON). -/
def jvBeq : Jv → Jv → Bool
  | .null, .null => true
  | .bool a, .bool b => a == b
  | .num a, .num b => a == b
  | .str a, .str b => a == b
  | .arr xs, .arr ys => jvBeqList xs ys
  | .obj ps, .obj qs => jvBeqPairs ps qs
  | _, _ => false

/-- Elementwise equality test on JSON arrays. -/
def jvBeqList : List Jv → List Jv → Bool
  | [], [] => true
  | x :: xs, y :: ys => jvBeq x y && jvBeqList xs ys
  | _, _ => false

/-- Entrywise equality test on JSON objects. -/
def jvBeqPairs : List (String × Jv) → List (String × Jv) → Bool
  | [], [] => true
  | (k, v) :: ps, (l, w) :: qs => k == l && jvBeq v w && jvBeqPairs ps qs
  | _, _ => false
end

/-- Python truthiness (`if x:`) of a JSON value. -/
def pyTruthy : Jv → Bool
  | .null => false
  | .bool b => b
  | .num q => q != 0
  | .str s => s != ""
  | .arr xs => !xs.isEmpty
  | .obj ps => !ps.isEmpty

/-- Python hashability of a JSON value: lists and dicts are unhashable, so
`set.add` raises `TypeError` on them. -/
def pyHashable : Jv → Bool
  | .arr _ => false
  | .obj _ => false
  | _ => true

/-- Crude rendering of a numeric value, standing in for Python's `str(float)`.
The exact digits never matter for any claim; what matters is that the result
starts with a digit or a minus sign, hence never canonicalizes to a decision
enum value. -/
def ratRepr (q : ℚ) : String :=
  if q.den = 1 then toString q.num ++ ".0"
  else toString q.num ++ "/" ++ toString q.den

/-- Python `str(x)` on a JSON value. Scalar renderings are faithful where it
matters; the renderings of containers are abbreviated placeholders (Python
renders their elements recursively) — no claim inspects those strings
beyond the facts that they are not among the decision enum values and that
truncation bounds their length. -/
def pyStr : Jv → String
  | .null => "None"
  | .bool true => "True"
  | .bool false => "False"
  | .num q => ratRepr q
  | .str s => s
  | .arr _ => "[...]"
  | .obj _ => "\x7b...\x7d"

/-- Python string slicing `s[:n]` (by code points). -/
def pyTrunc (s : String) (n : Nat) : String :=
  String.mk (s.toList.take n)

/-- Python `s.strip()`: drop leading and trailing whitespace. -/
def pyStrip (s : String) : String :=
  String.mk (((s.toList.dropWhile Char.isWhitespace).reverse.dropWhile
    Char.isWhitespace).reverse)

/-- Python `s.upper()`. -/
def pyUpper (s : String) : String :=
  String.mk (s.toList.map Char.toUpper)

/-- Python code-point-wise string comparison `a < b` (lexicographic). -/
def charListLt : List Char → List Char → Bool
  | [], [] => false
  | [], _ :: _ => true
  | _ :: _, [] => false
  | a :: as, b :: bs => decide (a < b) || (a == b && charListLt as bs)

/-- Python `a < b` on strings. -/
def strLt (a b : String) : Bool := charListLt a.toList b.toList

/-- Python `a <= b` on strings. -/
def strLe (a b : String) : Bool := strLt a b || a == b

/-- Insert into a sorted list, after all elements not strictly greater:
together with `pySort` this is a stable sort, like Python's `sorted`. -/
def insertSorted {α : Type} (le : α → α → Bool) (x : α) : List α → List α
  | [] => [x]
  | y :: ys => if le x y then x :: y :: ys else y :: insertSorted le x ys

/-- Stable insertion sort, modelling Python's `sorted`/`list.sort`. -/
def pySort {α : Type} (le : α → α → Bool) (l : List α) : List α :=
  l.foldr (insertSorted le) []

/-- Worker for `splitSeq`; the fuel argument only forces structural
recursion and is always at least the list length at the call site. -/
def splitSeqAux (sep : List Char) : Nat → List Char → List Char → List (List Char)
  | _, acc, [] => [acc.reverse]
  | 0, acc, cs => [acc.reverse ++ cs]
  | fuel + 1, acc, c :: rest =>
    if sep.isPrefixOf (c :: rest) then
      acc.reverse :: splitSeqAux sep fuel [] ((c :: rest).drop sep.length)
    else splitSeqAux sep fuel (c :: acc) rest

/-- Python `s.split(sep)` for a non-empty separator, on code points. -/
def splitSeq (sep cs : List Char) : List (List Char) :=
  if sep.isEmpty then [cs] else splitSeqAux sep (cs.length + 1) [] cs

/-- Parse an optionally signed decimal numeral the way Python's `float(str)`
does for plain decimal forms; `none` models a raised `ValueError` (exponent
forms and `inf`/`nan` are out of scope: no claim depends on them). -/
def digitsVal : List Char → Option Nat
  | [] => none
  | cs => cs.foldl (fun acc? c =>
      match acc? with
      | none => none
      | some acc => if c.isDigit then some (acc * 10 + (c.toNat - 48)) else none)
      (some 0)

/-- Unsigned decimal part of `strToFloat`. -/
def parseUnsignedDec (s : String) : Option ℚ :=
  match splitSeq ['.'] s.toList with
  | [ip] => (digitsVal ip).map (fun v => (v : ℚ))
  | [ip, fp] =>
    if ip.isEmpty && fp.isEmpty then none
    else
      let ipv := if ip.isEmpty then some 0 else digitsVal ip
      let fpv := if fp.isEmpty then some 0 else digitsVal fp
      match ipv, fpv with
      | some i, some f => some ((i : ℚ) + (f : ℚ) / ((10 : ℚ) ^ fp.length))
      | _, _ => none
  | _ => none

/-- Python `float(s)` on a string. -/
def strToFloat (s : String) : Option ℚ :=
  let t := pyStrip s
  match t.toList with
  | '-' :: rest => (parseUnsignedDec (String.mk rest)).map Neg.neg
  | '+' :: rest => parseUnsignedDec (String.mk rest)
  | _ => parseUnsignedDec t

/-- Python `float(x)` on a JSON value; `none` models a raised
`TypeError`/`ValueError` (caught by the caller's `except`). -/
def pyFloat : Jv → Option ℚ
  | .num q => some q
  | .bool b => some (if b then 1 else 0)
  | .str s => strToFloat s
  | _ => none

/-- Python dict lookup `d[k]` / `d.get(k)` on the association list of a JSON
object (`json.loads` never produces duplicate keys). -/
def dictGet (d : List (String × Jv)) (k : String) : Option Jv :=
  (d.find? (fun p => p.1 == k)).map (·.2)

/-! ### Judgement data model and validation
(`arkts_badcase_pipeline.py`, `Judgement` dataclass and `validate_judgement`) -/

/-- The `Judgement` dataclass. -/
structure Judgement where
  decision : String
  labels : List String
  arkts_score : ℚ
  quality_score : ℚ
  confidence : ℚ
  rationale : String
deriving DecidableEq, Repr

/-- The three admissible decision values. -/
def DECISIONS : List String := ["KEEP", "KEEP_WITH_TAG", "REMOVE"]

/-- Python `max(lo, min(hi, x))`. -/
def clamp (lo hi x : ℚ) : ℚ := max lo (min hi x)

/-- The `validate_judgement` function: canonicalize and check `decision`,
check `labels` is a list (absent/null treated as empty), coerce the numeric
fields (any raise yields `none`), clamp scores into range, truncate the
rationale to 400 characters. -/
def validate_judgement (v : Jv) : Option Judgement :=
  match v with
  | .obj d =>
    match dictGet d "decision" with
    | none => none
    | some dv =>
      let decision := pyUpper (pyStrip (pyStr dv))
      if decision ∈ DECISIONS then
        let lv := match dictGet d "labels" with
          | none => Jv.arr []
          | some .null => Jv.arr []
          | some x => x
        match lv with
        | .arr xs =>
          match pyFloat ((dictGet d "arkts_score").getD (.num 0)),
                pyFloat ((dictGet d "quality_score").getD (.num 0)),
                pyFloat ((dictGet d "confidence").getD (.num 0)) with
          | some a, some q, some c =>
            some ⟨decision, xs.map pyStr, clamp 0 5 a, clamp 0 5 q, clamp 0 1 c,
                  pyTrunc (pyStr ((dictGet d "rationale").getD (.str ""))) 400⟩
          | _, _, _ => none
        | _ => none
      else none
  | _ => none

/-! ### JSON extraction (`extract_json_object`) -/

/-- Scan forward from an opening brace keeping a depth counter; return the
relative index of the first position where the depth returns to zero under a
closing brace (mirrors the inner `for` loop of the brace-matching fallback). -/
def findCloseAux : List Char → Int → Nat → Option Nat
  | [], _, _ => none
  | c :: rest, depth, i =>
    if c = '{' then findCloseAux rest (depth + 1) (i + 1)
    else if c = '}' then
      if depth - 1 = 0 then some i else findCloseAux rest (depth - 1) (i + 1)
    else findCloseAux rest depth (i + 1)

/-- Try `json.loads` on the balanced-brace candidate at each opening-brace
position in order, advancing to the next position on scan or parse failure. -/
def tryStarts (loads : String → Option Jv) (cs : List Char) : List Nat → Option Jv
  | [] => none
  | st :: rest =>
    match findCloseAux (cs.drop st) 0 0 with
    | some i =>
      match loads (String.mk ((cs.drop st).take (i + 1))) with
      | some v => some v
      | none => tryStarts loads cs rest
    | none => tryStarts loads cs rest

/-- The backquote character (of the triple-backquote code fence marker). -/
def backquote : Char := Char.ofNat 96

/-- Strip a leading/trailing code fence the way `extract_json_object` does:
split on the fence marker and rejoin the inner parts. -/
def stripFences (s : String) : String :=
  let fence := [backquote, backquote, backquote]
  if fence.isPrefixOf s.toList then
    let parts := splitSeq fence s.toList
    if 3 ≤ parts.length then
      pyStrip (String.intercalate "\n" ((parts.drop 1 |>.dropLast).map String.mk))
    else s
  else s

/-- The `extract_json_object` function, parameterized by `json.loads`.
The greedy regex `\{.*\}` (DOTALL) matches from the first opening brace that
precedes the last closing brace up to that last closing brace. -/
def extract_json_object (loads : String → Option Jv) (text : String) : Option Jv :=
  let s := stripFences (pyStrip text)
  let cs := s.toList
  let regexCand : Option Jv :=
    match cs.findIdx? (fun c => c = '{') with
    | none => none
    | some i =>
      match (cs.length - 1 - ·) <$> cs.reverse.findIdx? (fun c => c = '}') with
      | none => none
      | some j => if i < j then loads (String.mk ((cs.drop i).take (j + 1 - i))) else none
  match regexCand with
  | some v => some v
  | none =>
    tryStarts loads cs (((List.range cs.length).filter (fun i => cs.getD i ' ' = '{')))

/-! ### Per-request judging (`run_one_judgement`, response side) -/

/-- The `PARSE_ERROR` fallback judgement. -/
def parseErrorJudgement : Judgement :=
  ⟨"KEEP_WITH_TAG", ["PARSE_ERROR"], 3, 3, 3/10, "Failed to parse model JSON"⟩

/-- The `API_ERROR` fallback judgement synthesized on transport/HTTP failure. -/
def apiErrorJudgement (msg : String) : Judgement :=
  ⟨"KEEP_WITH_TAG", ["API_ERROR"], 3, 3, 1/5, pyTrunc msg 200⟩

/-- Turn the raw response text of a successful API call into a judgement:
extract a JSON object, validate it if truthy, and fall back to the
`PARSE_ERROR` judgement otherwise (the success branch of
`run_one_judgement`). -/
def judgeFromText (loads : String → Option Jv) (raw : String) : Judgement :=
  let obj? := extract_json_object loads raw
  let j? := match obj? with
    | some o => if pyTruthy o then validate_judgement o else none
    | none => none
  j?.getD parseErrorJudgement

/-- Outcome of one chat-completion call as seen by `run_one_judgement`:
either a request-level error (`"error" in resp`) or the extracted raw
response text. -/
inductive ApiOutcome where
  | err : String → ApiOutcome
  | ok : String → ApiOutcome
deriving DecidableEq, Repr

/-- The judgement produced by `run_one_judgement` for a given call outcome. -/
def judgeOfOutcome (loads : String → Option Jv) : ApiOutcome → Judgement
  | .err m => apiErrorJudgement m
  | .ok t => judgeFromText loads t

/-! ### Consensus (`consensus` and `SEVERITY`) -/

/-- The `SEVERITY` ranking dict. -/
def SEVERITY : List (String × Nat) := [("KEEP", 0), ("KEEP_WITH_TAG", 1), ("REMOVE", 2)]

/-- Dict lookup in `SEVERITY`; `none` models a raised `KeyError`. -/
def severityOf (d : String) : Option Nat :=
  (SEVERITY.find? (fun p => p.1 == d)).map (·.2)

/-- Dict lookup on the vote association list (used to state the vote-count
lemmas). -/
def lookupVal : List (String × Nat) → String → Option Nat
  | [], _ => none
  | p :: v, d => if p.1 = d then some p.2 else lookupVal v d

/-- One step of building the `vote` dict: bump the count for a decision,
inserting it at the end on first occurrence (Python dict insertion order). -/
def voteFold (v : List (String × Nat)) (d : String) : List (String × Nat) :=
  if v.any (fun p => p.1 == d) then
    v.map (fun p => if p.1 = d then (p.1, p.2 + 1) else p)
  else v ++ [(d, 1)]

/-- The `vote` dict of a judgement list, as an insertion-ordered
association list. -/
def voteOf (js : List Judgement) : List (String × Nat) :=
  js.foldl (fun v j => voteFold v j.decision) []

/-- The maximal vote count (`max(vote.values())`). -/
def maxVotesOf (js : List Judgement) : Nat :=
  ((voteOf js).map (·.2)).foldl max 0

/-- The top-voted decisions (the `top` list), in dict insertion order. -/
def topOf (js : List Judgement) : List String :=
  ((voteOf js).filter (fun p => p.2 == maxVotesOf js)).map (·.1)

/-- First element of `sorted(pairs, key=severity, reverse=True)`: the first
pair attaining the maximal severity (Python's sort is stable). -/
def pickMaxFirst : List (String × Nat) → String × Nat
  | [] => ("", 0)
  | p :: ps => ps.foldl (fun best q => if best.2 < q.2 then q else best) p

/-- Sorted set-union of all replica labels (`sorted({...})`). -/
def unionLabels (js : List Judgement) : List String :=
  pySort strLe ((js.flatMap (·.labels)).dedup)

/-- The final decision of `consensus` for a non-empty judgement list:
the unique top-voted decision, or on ties the most severe one (forced to
`KEEP_WITH_TAG` when the first and last tied decisions share a severity
rank). `none` models the `KeyError` raised by `sorted(..., key=SEVERITY[...])`
when a tied decision is outside `SEVERITY` (unreachable from
pipeline-produced judgements). -/
def tieDecision (js : List Judgement) : Option String :=
  if (topOf js).length = 1 then some ((topOf js).headD "")
  else
    match (topOf js).mapM (fun d => (severityOf d).map (fun s => (d, s))) with
    | none => none
    | some pairs =>
      if 1 < (topOf js).length ∧ (pairs.headD ("", 0)).2 = (pairs.getLastD ("", 0)).2
      then some "KEEP_WITH_TAG"
      else some (pickMaxFirst pairs).1

/-- The aggregation step of `consensus`: sorted label union, arithmetic-mean
scores and confidence, concatenated-then-truncated rationale. -/
def consensusAgg (fd : String) (js : List Judgement) : Judgement :=
  ⟨fd, unionLabels js,
   (js.map (·.arkts_score)).sum / (js.length : ℚ),
   (js.map (·.quality_score)).sum / (js.length : ℚ),
   (js.map (·.confidence)).sum / (js.length : ℚ),
   pyTrunc (String.intercalate "; " (js.map (·.rationale))) 400⟩

/-- The `consensus` function. Majority vote on decision, severity tie-break,
then field aggregation; the empty replica set yields the synthesized
low-confidence default. -/
def consensus (js : List Judgement) : Option Judgement :=
  match js with
  | [] => some ⟨"KEEP_WITH_TAG", [], 3, 3, 3/10, "empty-judgements"⟩
  | _ => (tieDecision js).map (fun fd => consensusAgg fd js)

/-! ### Stratified sampling (`stratified_sample` and helpers)
The `random` module is abstracted as a `RandOps` record; its documented
contract (a sample of `k` distinct elements, a length-preserving shuffle)
is a hypothesis of the theorems, discharged by a concrete instance in the
witnesses. -/

/-- Abstract interface to `random.sample` and `random.shuffle` under a fixed
seed. -/
structure RandOps (α : Type) where
  sample : List α → Nat → List α
  shuffle : List α → List α

/-- The documented behavior of `random.sample` (returns exactly `k`
elements when `k ≤ len(population)`) and `random.shuffle` (a permutation,
so length-preserving). -/
def RandOps.Valid {α : Type} (R : RandOps α) : Prop :=
  (∀ l k, k ≤ l.length → (R.sample l k).length = k) ∧
  (∀ l, (R.shuffle l).length = l.length)

/-- A concrete deterministic instance of `RandOps` (used by witnesses and
counterexamples): take the first `k` elements, shuffle as the identity. -/
def takeOps (α : Type) : RandOps α := ⟨fun l k => l.take k, id⟩

/-- The `length_bucket_by_chars` function. -/
def length_bucket_by_chars (s : String) : String :=
  let n := s.length
  if n < 200 then "len_<200"
  else if n < 800 then "len_200_800"
  else if n < 2000 then "len_800_2k"
  else if n < 6000 then "len_2k_6k"
  else "len_6k_plus"

/-- A corpus record, with the fields the pipeline reads: `id`, the code-text
field, and the optional source/language strata fields. `none` models an
absent key. -/
structure Row where
  id : Option String
  text : Option String
  source : Option String
  lang : Option String
deriving DecidableEq, Repr

/-- Python `row.get(code_field) or ""`. -/
def codeOf (r : Row) : String := r.text.getD ""

/-- The `default_strata` function; the booleans say whether a
`source_field`/`lang_field` was configured. -/
def default_strata (useSource useLang : Bool) (r : Row) : String × String × String :=
  (length_bucket_by_chars (codeOf r),
   if useSource then r.source.getD "src_unknown" else "src_unknown",
   if useLang then r.lang.getD "lang_unknown" else "lang_unknown")

/-- One step of building the `strata` dict: `strata.setdefault(key, []).append(r)`
(insertion-ordered keys, per-key lists in row order). -/
def insertStratum {α κ : Type} [DecidableEq κ] (st : List (κ × List α)) (k : κ) (r : α) :
    List (κ × List α) :=
  if st.any (fun p => decide (p.1 = k)) then
    st.map (fun p => if p.1 = k then (p.1, p.2 ++ [r]) else p)
  else st ++ [(k, [r])]

/-- The `strata` dict of `stratified_sample`, as an insertion-ordered
association list. -/
def buildStrata {α κ : Type} [DecidableEq κ] (f : α → κ) (rows : List α) :
    List (κ × List α) :=
  rows.foldl (fun st r => insertStratum st (f r) r) []

/-- First-pass allocation for one stratum:
`min(max(1, floor(len(items) / total * n)), len(items))`. -/
def allocFor (total n sz : Nat) : Nat := min (max 1 (sz * n / total)) sz

/-- The initial `spare` list: `(stratum index, len(items) - allocation)` for
each stratum with spare room, stably sorted by spare size descending.
Strata are identified positionally (the dict keys are distinct). -/
def spareInit (sizes alloc : List Nat) : List (Nat × Nat) :=
  pySort (fun a b => decide (b.2 ≤ a.2))
    (((List.range sizes.length).map (fun i => (i, sizes.getD i 0 - alloc.getD i 0))).filter
      (fun p => decide (0 < p.2)))

/-- The remainder-redistribution `while` loop of `stratified_sample`:
cycle over the spare list, granting one extra slot whenever the current
entry still has spare room. The fuel argument only forces totality; the
loop lemmas show the fuel chosen by `finalAlloc` never runs out on inputs
the sampler actually reaches (on other inputs Python would not terminate). -/
def redisLoop : Nat → List Nat → List (Nat × Nat) → Nat → Nat → List Nat × Nat
  | 0, alloc, _, remaining, _ => (alloc, remaining)
  | fuel + 1, alloc, spare, remaining, idx =>
    if remaining = 0 ∨ spare.length = 0 then (alloc, remaining)
    else
      let pos := idx % spare.length
      let p := spare.getD pos (0, 0)
      if 0 < p.2 then
        redisLoop fuel (alloc.set p.1 (alloc.getD p.1 0 + 1))
          (spare.set pos (p.1, p.2 - 1)) (remaining - 1) (idx + 1)
      else redisLoop fuel alloc spare remaining (idx + 1)

/-- The per-stratum allocations of `stratified_sample` after the
proportional floor pass and the remainder-redistribution pass, positionally
parallel to `buildStrata f rows`. -/
def finalAlloc {α κ : Type} [DecidableEq κ] (f : α → κ) (rows : List α) (n : Nat) :
    List Nat :=
  let sizes := (buildStrata f rows).map (·.2.length)
  let alloc0 := sizes.map (allocFor rows.length n)
  let s0 := alloc0.sum
  if s0 < n then
    let rem := n - s0
    let spare := spareInit sizes alloc0
    (redisLoop ((rem + 1) * (spare.length + 1)) alloc0 spare rem 0).1
  else alloc0

/-- The `stratified_sample` function: build strata, allocate, draw per
stratum (whole stratum when the allocation covers it), top up from the
unsampled pool on shortfall, shuffle, and truncate to `n`. -/
def stratified_sample {α κ : Type} [DecidableEq α] [DecidableEq κ] (R : RandOps α)
    (f : α → κ) (rows : List α) (n : Nat) : List α :=
  let strata := buildStrata f rows
  let alloc := finalAlloc f rows n
  let drawn := (List.zipWith (fun (p : κ × List α) k =>
      if k = 0 then [] else if k < p.2.length then R.sample p.2 k else p.2) strata alloc).flatten
  let sampled := if drawn.length < n then
      let pool := rows.filter (fun r => decide (r ∉ drawn))
      drawn ++ R.sample pool (min (n - drawn.length) pool.length)
    else drawn
  (R.shuffle sampled).take n

/-- The `sampled` list of `stratified_sample` before the shortfall top-up:
per-stratum draws, flattened (named for use in the sampler theorems). -/
def drawnOf {α κ : Type} [DecidableEq α] [DecidableEq κ] (R : RandOps α) (f : α → κ)
    (rows : List α) (n : Nat) : List α :=
  (List.zipWith (fun (p : κ × List α) k =>
      if k = 0 then [] else if k < p.2.length then R.sample p.2 k else p.2)
    (buildStrata f rows) (finalAlloc f rows n)).flatten

/-! ### Full-sweep orchestrator (`arkts_full_data_processor.py`)
The judgements store (`judgements.jsonl`) is modelled at two levels:
as the list of `ItemResult` rows appended to it (each persisted line is the
JSON serialization of a merged dict whose `item_id` key carries the row's
item id, so the id set survives the dump/load round trip), and for
`load_processed_ids_from_judgements` also at the raw line level. -/

/-- The `ItemResult` dataclass (the token-usage and raw-response provenance
fields are omitted: no claim reads them). -/
structure ItemResult where
  item_id : String
  replica : Nat
  decision : String
  labels : List String
  arkts_score : ℚ
  quality_score : ℚ
  confidence : ℚ
  rationale : String
  model : String
  temperature : ℚ
deriving DecidableEq, Repr

/-- The item id used by the orchestrator: `row.get("id") or sha1_text(code)`
(a falsy `id` — absent or empty — falls back to the SHA-1 of the code
text). -/
def itemIdOf (sha1 : String → String) (r : Row) : String :=
  match r.id with
  | some s => if s = "" then sha1 (codeOf r) else s
  | none => sha1 (codeOf r)

/-- Assemble the `ItemResult` of one judge call (`run_one_judgement`'s
return). -/
def mkItemResult (j : Judgement) (iid model : String) (temp : ℚ) (replica : Nat) :
    ItemResult :=
  ⟨iid, replica, j.decision, j.labels, j.arkts_score, j.quality_score, j.confidence,
   j.rationale, model, temp⟩

/-- The `run_one_judgement` function: call the judge (abstract oracle from
item id, code, replica and temperature to a call outcome), turn the outcome
into a judgement, and package it; it never raises. -/
def run_one_judgement (loads : String → Option Jv)
    (oracle : String → String → Nat → ℚ → ApiOutcome)
    (iid code model : String) (temp : ℚ) (replica : Nat) : ItemResult :=
  mkItemResult (judgeOfOutcome loads (oracle iid code replica temp)) iid model temp replica

/-- The set of already-processed item ids recovered from the persisted
store (`load_processed_ids_from_judgements` applied to the rows previously
appended: the truthy `item_id` values, i.e. the non-empty ones). -/
def loadProcessedIds (store : List ItemResult) : List String :=
  store.foldl (fun acc r =>
    if r.item_id ≠ "" then (if r.item_id ∈ acc then acc else acc ++ [r.item_id]) else acc) []

/-- Fixed-size batching (`remaining_rows[i:i + batch_size]` for
`i in range(0, len, batch_size)`); Python raises on `batch_size <= 0`, which
is modelled as producing no batches, and the theorems assume a positive
batch size. -/
def chunksAux {α : Type} (bs : Nat) : Nat → List α → List (List α)
  | _, [] => []
  | 0, l => [l]
  | fuel + 1, l => l.take bs :: chunksAux bs fuel (l.drop bs)

/-- Fixed-size batching entry point; the fuel of `chunksAux` only forces
structural recursion and never runs out for a positive batch size. -/
def chunks {α : Type} (bs : Nat) (l : List α) : List (List α) :=
  if bs = 0 then [] else chunksAux bs l.length l

/-- Replica temperature: `temps[min(rep, len(temps)-1)]`. -/
def tempAt (temps : List ℚ) (rep : Nat) : ℚ :=
  temps.getD (min rep (temps.length - 1)) 0

/-- Sort key used before persisting a batch:
`batch_results.sort(key=lambda x: (x.item_id, x.replica))`. -/
def resultLe (a b : ItemResult) : Bool :=
  strLt a.item_id b.item_id || (a.item_id == b.item_id && decide (a.replica ≤ b.replica))

/-- The `(item_id, code, replica, temperature)` job tuples of one batch
(`rep + 1` is the 1-based replica index). -/
def batchJobs (sha1 : String → String) (replicas : Nat) (temps : List ℚ)
    (batch : List Row) : List (String × String × Nat × ℚ) :=
  batch.flatMap (fun r =>
    (List.range replicas).map (fun rep => (itemIdOf sha1 r, codeOf r, rep + 1, tempAt temps rep)))

/-- The rows appended for one batch: run every job (collection order is
irrelevant because the results are sorted by `(item_id, replica)` before
being appended). -/
def batchResults (sha1 : String → String) (loads : String → Option Jv)
    (oracle : String → String → Nat → ℚ → ApiOutcome) (model : String)
    (replicas : Nat) (temps : List ℚ) (batch : List Row) : List ItemResult :=
  pySort resultLe ((batchJobs sha1 replicas temps batch).map (fun job =>
    run_one_judgement loads oracle job.1 job.2.1 model job.2.2.2 job.2.2.1))

/-- The corpus rows that survive the resume filter: rows whose item id is
not already in the persisted store. -/
def remainingRows (sha1 : String → String) (store : List ItemResult) (rows : List Row) :
    List Row :=
  rows.filter (fun r => decide (itemIdOf sha1 r ∉ loadProcessedIds store))

/-- The `process_full_data` orchestrator, store-level view: load processed
ids, filter the corpus, process the remainder in batches, and append each
batch's rows to the store (when nothing remains, nothing is appended). -/
def process_full_data (sha1 : String → String) (loads : String → Option Jv)
    (oracle : String → String → Nat → ℚ → ApiOutcome) (model : String)
    (replicas : Nat) (temps0 : List ℚ) (bs : Nat)
    (store : List ItemResult) (rows : List Row) : List ItemResult :=
  let temps := if temps0 = [] then [1/10, 3/10] else temps0
  store ++ (chunks bs (remainingRows sha1 store rows)).flatMap
    (batchResults sha1 loads oracle model replicas temps)

/-! ### Line-level `load_processed_ids_from_judgements` (for C10) -/

/-- Python `set.add` on a list accumulator (insertion-ordered, duplicates
suppressed via `jvBeq`). -/
def jvInsertSet (acc : List Jv) (v : Jv) : List Jv :=
  if acc.any (jvBeq v) then acc else acc ++ [v]

/-- Process one line of the judgements file: strip, skip blanks, parse,
read `item_id` (attribute errors on non-dicts and `TypeError` from adding
an unhashable value are swallowed by the per-line `except`), and add truthy
values to the set. -/
def processLine (loads : String → Option Jv) (acc : List Jv) (line : String) : List Jv :=
  let l := pyStrip line
  if l = "" then acc
  else match loads l with
    | none => acc
    | some (.obj d) =>
      match dictGet d "item_id" with
      | some v => if pyTruthy v then (if pyHashable v then jvInsertSet acc v else acc) else acc
      | none => acc
    | some _ => acc

/-- The `load_processed_ids_from_judgements` function at the raw file
level: `none` models a missing file, `some lines` its lines. It never
raises. -/
def load_processed_ids_from_judgements (loads : String → Option Jv)
    (file : Option (List String)) : List Jv :=
  match file with
  | none => []
  | some lines => lines.foldl (processLine loads) []

/-! ### Definitions used by theorem statements -/

/-- Canonicalization applied to the `decision` field by `validate_judgement`:
`str(x).strip().upper()`. -/
def canonDecision (x : Jv) : String := pyUpper (pyStrip (pyStr x))

/-- Well-formedness of a judgement: decision among the three enum values,
scores in `[0,5]`, confidence in `[0,1]`, rationale at most 400 characters. -/
def WFJudgement (j : Judgement) : Prop :=
  j.decision ∈ DECISIONS ∧
  0 ≤ j.arkts_score ∧ j.arkts_score ≤ 5 ∧
  0 ≤ j.quality_score ∧ j.quality_score ≤ 5 ∧
  0 ≤ j.confidence ∧ j.confidence ≤ 1 ∧
  j.rationale.length ≤ 400

/-- The order-insensitive fields of a consensus result: everything except
the rationale. -/
def consensusObs (j : Judgement) : String × List String × ℚ × ℚ × ℚ :=
  (j.decision, j.labels, j.arkts_score, j.quality_score, j.confidence)

/-- First-pass (proportional floor) allocations, positionally parallel to
the strata. -/
def alloc0Of {α κ : Type} [DecidableEq κ] (f : α → κ) (rows : List α) (n : Nat) :
    List Nat :=
  ((buildStrata f rows).map (·.2.length)).map (allocFor rows.length n)

/-- Replica identity of a persisted row. -/
def resultKey (r : ItemResult) : String × Nat := (r.item_id, r.replica)

/-- A `json.loads` stand-in that parses nothing (the judge replied in plain
prose in the scenarios where it is used, so the parser is never consulted
on a well-formed document). -/
def loadsNone : String → Option Jv := fun _ => none

/-- A stand-in for `sha1_text`: hex digests are never empty, which is all
the orchestrator theorems use. -/
def sha1Stub : String → String := fun _ => "da39a3ee"

/-- An always-failing judge oracle (transport error on every call). -/
def oracleErr : String → String → Nat → ℚ → ApiOutcome := fun _ _ _ _ => .err "boom"

/-- Rows for the allocation-sum counterexample: three records whose code
texts fall in three different length buckets, so each forms its own
stratum. -/
def cexRows3 : List Row :=
  [⟨some "a", some (String.mk (List.replicate 100 'x')), none, none⟩,
   ⟨some "b", some (String.mk (List.replicate 300 'x')), none, none⟩,
   ⟨some "c", some (String.mk (List.replicate 1000 'x')), none, none⟩]

/-- Rows for the duplicate-id counterexample: two distinct records sharing
the id `"x"`. -/
def cexRowsDup : List Row :=
  [⟨some "x", some "code one", none, none⟩, ⟨some "x", some "code two", none, none⟩]

/-- A `json.loads` stand-in for the single line appearing in the unhashable
`item_id` counterexample; it parses that line exactly as Python's
`json.loads` does and nothing else. -/
def loadsCex : String → Option Jv := fun s =>
  if s = "\x7b\x22item_id\x22: [1]\x7d" then some (.obj [("item_id", .arr [.num 1])]) else none

/-- Invariant carried through `redisLoop`: every spare entry names a valid
stratum index with room left up to that stratum's size. -/
def SpareInv (sizes alloc : List Nat) (spare : List (Nat × Nat)) : Prop :=
  ∀ pos, pos < spare.length →
    (spare.getD pos (0, 0)).1 < sizes.length ∧
    alloc.getD (spare.getD pos (0, 0)).1 0 + (spare.getD pos (0, 0)).2
      ≤ sizes.getD (spare.getD pos (0, 0)).1 0


/-! ## Theorems -/


/-! ### Basic helper lemmas -/

theorem pyTrunc_length_le (s : String) (n : Nat) : (pyTrunc s n).length ≤ n := by
  rw [pyTrunc, String.length_mk]
  exact List.length_take_le n s.toList

theorem clamp_lower (lo hi x : ℚ) : lo ≤ clamp lo hi x := le_max_left _ _

theorem clamp_upper (lo hi x : ℚ) (h : lo ≤ hi) : clamp lo hi x ≤ hi :=
  max_le h (min_le_left _ _)

/-- C7 helper: any judgement produced by successful validation satisfies the
canonicalization and range facts. -/
theorem validate_some_spec (v : Jv) (j : Judgement) (h : validate_judgement v = some j) :
    (∃ d x, v = Jv.obj d ∧ dictGet d "decision" = some x ∧ canonDecision x ∈ DECISIONS ∧
      j.decision = canonDecision x) ∧
    0 ≤ j.arkts_score ∧ j.arkts_score ≤ 5 ∧
    0 ≤ j.quality_score ∧ j.quality_score ≤ 5 ∧
    0 ≤ j.confidence ∧ j.confidence ≤ 1 ∧
    j.rationale.length ≤ 400 := by
  cases v with
  | obj d =>
    simp only [validate_judgement] at h
    rcases hx : dictGet d "decision" with _ | x
    · rw [hx] at h; simp at h
    · rw [hx] at h
      by_cases hd : pyUpper (pyStrip (pyStr x)) ∈ DECISIONS
      · simp only [hd, if_true] at h
        split at h
        · split at h
          · rename_i a q c _ _
            injection h with h'
            subst h'
            refine ⟨⟨d, x, rfl, hx, hd, rfl⟩, ?_, ?_, ?_, ?_, ?_, ?_, ?_⟩
            · exact clamp_lower _ _ _
            · exact clamp_upper _ _ _ (by norm_num)
            · exact clamp_lower _ _ _
            · exact clamp_upper _ _ _ (by norm_num)
            · exact clamp_lower _ _ _
            · exact clamp_upper _ _ _ (by norm_num)
            · exact pyTrunc_length_le _ _
          · simp at h
        · simp at h
      · simp [hd] at h
  | null => simp [validate_judgement] at h
  | bool b => simp [validate_judgement] at h
  | num q => simp [validate_judgement] at h
  | str s => simp [validate_judgement] at h
  | arr xs => simp [validate_judgement] at h

/-- C7 helper: a non-enum decision makes validation fail. -/
theorem validate_bad_decision (d : List (String × Jv)) (x : Jv)
    (hx : dictGet d "decision" = some x) (hd : canonDecision x ∉ DECISIONS) :
    validate_judgement (Jv.obj d) = none := by
  simp only [canonDecision] at hd
  simp only [validate_judgement, hx]
  rw [if_neg hd]

/-- C7 helper: a present, non-null, non-list `labels` makes validation fail. -/
theorem validate_bad_labels (d : List (String × Jv)) (lv : Jv)
    (hl : dictGet d "labels" = some lv) (hnn : lv ≠ Jv.null)
    (hna : ∀ xs, lv ≠ Jv.arr xs) : validate_judgement (Jv.obj d) = none := by
  rcases hx : dictGet d "decision" with _ | x
  · simp only [validate_judgement, hx]
  · simp only [validate_judgement, hx]
    by_cases hd : pyUpper (pyStrip (pyStr x)) ∈ DECISIONS
    · rw [if_pos hd, hl]
      cases lv with
      | null => exact absurd rfl hnn
      | arr xs => exact absurd rfl (hna xs)
      | bool b => rfl
      | num q => rfl
      | str s => rfl
      | obj ps => rfl
    · rw [if_neg hd]

/-! ### Vote-dict lemmas -/

theorem lookupVal_map_bump (v : List (String × Nat)) (d : String) :
    lookupVal (v.map (fun p => if p.1 = d then (p.1, p.2 + 1) else p)) d =
      (lookupVal v d).map (· + 1) := by
  induction v with
  | nil => rfl
  | cons p v ih =>
    by_cases hp : p.1 = d
    · simp [lookupVal, hp]
    · simp [lookupVal, hp, ih]

theorem lookupVal_map_bump_ne (v : List (String × Nat)) (d d' : String) (h : d' ≠ d) :
    lookupVal (v.map (fun p => if p.1 = d then (p.1, p.2 + 1) else p)) d' =
      lookupVal v d' := by
  induction v with
  | nil => rfl
  | cons p v ih =>
    by_cases hp : p.1 = d
    · have hne : ¬ d = d' := fun hc => h hc.symm
      simp [lookupVal, hp, hne, ih]
    · by_cases hq : p.1 = d'
      · simp [lookupVal, hp, hq, h]
      · simp [lookupVal, hp, hq, ih]

theorem lookupVal_none_of_not_any (v : List (String × Nat)) (d : String)
    (h : v.any (fun p => p.1 == d) = false) : lookupVal v d = none := by
  induction v with
  | nil => rfl
  | cons p v ih =>
    simp only [List.any_cons, Bool.or_eq_false_iff] at h
    have h1 : ¬ p.1 = d := by simpa using h.1
    rw [lookupVal, if_neg h1]
    exact ih h.2

theorem lookupVal_isSome_of_any (v : List (String × Nat)) (d : String)
    (h : v.any (fun p => p.1 == d) = true) : ∃ c, lookupVal v d = some c := by
  induction v with
  | nil => simp at h
  | cons p v ih =>
    by_cases hp : p.1 = d
    · exact ⟨p.2, by rw [lookupVal, if_pos hp]⟩
    · simp only [List.any_cons, Bool.or_eq_true] at h
      rcases h with h | h
      · exact absurd (by simpa using h) hp
      · rcases ih h with ⟨c, hc⟩
        exact ⟨c, by rw [lookupVal, if_neg hp]; exact hc⟩

theorem lookupVal_append (v w : List (String × Nat)) (d : String) :
    lookupVal (v ++ w) d = ((lookupVal v d).or (lookupVal w d)) := by
  induction v with
  | nil => rfl
  | cons p v ih =>
    by_cases hp : p.1 = d
    · simp [lookupVal, hp]
    · simp [lookupVal, hp, ih]

theorem voteFold_lookup_eq (v : List (String × Nat)) (d : String) :
    lookupVal (voteFold v d) d = some ((lookupVal v d).getD 0 + 1) := by
  by_cases hv : v.any (fun p => p.1 == d)
  · rw [voteFold, if_pos hv, lookupVal_map_bump]
    rcases lookupVal_isSome_of_any v d hv with ⟨c, hc⟩
    simp [hc]
  · have hv' : v.any (fun p => p.1 == d) = false := Bool.eq_false_iff.mpr hv
    rw [voteFold, if_neg hv, lookupVal_append, lookupVal_none_of_not_any v d hv']
    simp [lookupVal]

theorem voteFold_lookup_ne (v : List (String × Nat)) (d d' : String) (h : d' ≠ d) :
    lookupVal (voteFold v d) d' = lookupVal v d' := by
  by_cases hv : v.any (fun p => p.1 == d)
  · rw [voteFold, if_pos hv]
    exact lookupVal_map_bump_ne v d d' h
  · rw [voteFold, if_neg hv, lookupVal_append]
    have hw : lookupVal [(d, 1)] d' = none := by
      rw [lookupVal, if_neg (fun hc => h hc.symm)]
      rfl
    rw [hw]
    cases lookupVal v d' <;> rfl

/-! ### Vote aggregate and top-set lemmas -/

theorem voteOf_go (js : List Judgement) : ∀ (acc : List (String × Nat)) (d : String),
    lookupVal (js.foldl (fun v j => voteFold v j.decision) acc) d =
      match lookupVal acc d with
      | some c => some (c + (js.map (·.decision)).count d)
      | none => if (js.map (·.decision)).count d = 0 then none
                else some ((js.map (·.decision)).count d) := by
  induction js with
  | nil =>
    intro acc d
    cases h : lookupVal acc d <;> simp [h]
  | cons j js ih =>
    intro acc d
    rw [List.foldl_cons, ih (voteFold acc j.decision) d]
    by_cases hd : j.decision = d
    · rw [hd, voteFold_lookup_eq acc d]
      have hc : ((j :: js).map (·.decision)).count d = (js.map (·.decision)).count d + 1 := by
        simp [List.count_cons, hd]
      rw [hc]
      cases h : lookupVal acc d <;> simp [h] <;> omega
    · rw [voteFold_lookup_ne acc j.decision d (fun hc => hd hc.symm)]
      have hne : ¬ d = j.decision := fun hc => hd hc.symm
      have hc : ((j :: js).map (·.decision)).count d = (js.map (·.decision)).count d := by
        simp [List.count_cons, hne]
      rw [hc]

theorem voteOf_lookup (js : List Judgement) (d : String) :
    lookupVal (voteOf js) d =
      if (js.map (·.decision)).count d = 0 then none
      else some ((js.map (·.decision)).count d) := by
  rw [voteOf, voteOf_go js [] d]
  rfl

theorem voteFold_keys_nodup (v : List (String × Nat)) (d : String)
    (h : (v.map Prod.fst).Nodup) : ((voteFold v d).map Prod.fst).Nodup := by
  by_cases hv : v.any (fun p => p.1 == d)
  · rw [voteFold, if_pos hv]
    have : (v.map (fun p => if p.1 = d then (p.1, p.2 + 1) else p)).map Prod.fst
        = v.map Prod.fst := by
      rw [List.map_map]
      refine List.map_congr_left (fun p _ => ?_)
      by_cases hp : p.1 = d <;> simp [hp]
    rw [this]
    exact h
  · rw [voteFold, if_neg hv]
    have hd : d ∉ v.map Prod.fst := by
      intro hc
      rcases List.mem_map.mp hc with ⟨p, hp, he⟩
      exact hv (List.any_eq_true.mpr ⟨p, hp, by simp [he]⟩)
    simp only [List.map_append, List.map_cons, List.map_nil]
    exact List.Nodup.append h (List.nodup_singleton d)
      (by simpa [List.disjoint_singleton] using hd)

theorem voteOf_keys_nodup (js : List Judgement) : ((voteOf js).map Prod.fst).Nodup := by
  rw [voteOf]
  generalize hacc : ([] : List (String × Nat)) = acc
  have hn : (acc.map Prod.fst).Nodup := by rw [← hacc]; simp
  clear hacc
  induction js generalizing acc with
  | nil => exact hn
  | cons j js ih => exact ih _ (voteFold_keys_nodup _ _ hn)

theorem lookupVal_eq_some_iff_mem (v : List (String × Nat)) (h : (v.map Prod.fst).Nodup)
    (d : String) (c : Nat) : lookupVal v d = some c ↔ (d, c) ∈ v := by
  induction v with
  | nil => simp [lookupVal]
  | cons p v ih =>
    simp only [List.map_cons, List.nodup_cons] at h
    by_cases hp : p.1 = d
    · rw [lookupVal, if_pos hp]
      constructor
      · intro hc
        injection hc with hc
        have he : (d, c) = p := by
          rcases p with ⟨a, b⟩
          simp only at hp hc
          rw [← hp, ← hc]
        exact List.mem_cons.mpr (Or.inl he)
      · intro hm
        rcases List.mem_cons.mp hm with hm | hm
        · rw [← hm]
        · exact absurd (hp ▸ List.mem_map.mpr ⟨(d, c), hm, rfl⟩) h.1
    · rw [lookupVal, if_neg hp]
      rw [ih h.2]
      constructor
      · exact fun hm => List.mem_cons.mpr (Or.inr hm)
      · intro hm
        rcases List.mem_cons.mp hm with hm | hm
        · exact absurd (congrArg Prod.fst hm).symm hp
        · exact hm

theorem le_foldl_max (l : List Nat) (a : Nat) :
    a ≤ l.foldl max a ∧ ∀ x ∈ l, x ≤ l.foldl max a := by
  induction l generalizing a with
  | nil => simp
  | cons b l ih =>
    rcases ih (max a b) with ⟨h1, h2⟩
    rw [List.foldl_cons]
    refine ⟨Nat.le_trans (Nat.le_max_left a b) h1, ?_⟩
    intro x hx
    rcases List.mem_cons.mp hx with hx | hx
    · rw [hx]
      exact Nat.le_trans (Nat.le_max_right a b) h1
    · exact h2 x hx

theorem foldl_max_mem (l : List Nat) (a : Nat) :
    l.foldl max a = a ∨ l.foldl max a ∈ l := by
  induction l generalizing a with
  | nil => exact Or.inl rfl
  | cons b l ih =>
    rcases ih (max a b) with h | h
    · rcases Nat.le_total a b with hab | hab
      · right
        rw [List.foldl_cons, h, Nat.max_eq_right hab]
        exact List.mem_cons_self b l
      · left
        rw [List.foldl_cons, h, Nat.max_eq_left hab]
    · exact Or.inr (List.mem_cons.mpr (Or.inr h))

theorem mem_topOf (js : List Judgement) (d : String) :
    d ∈ topOf js ↔ lookupVal (voteOf js) d = some (maxVotesOf js) := by
  rw [topOf]
  constructor
  · intro hd
    rcases List.mem_map.mp hd with ⟨p, hp, he⟩
    rcases List.mem_filter.mp hp with ⟨hpv, hpe⟩
    have : p = (d, maxVotesOf js) := by
      rcases p with ⟨a, b⟩
      simp only at he
      simp only [beq_iff_eq] at hpe
      rw [he, hpe]
    exact (lookupVal_eq_some_iff_mem _ (voteOf_keys_nodup js) _ _).mpr (this ▸ hpv)
  · intro hl
    have hm := (lookupVal_eq_some_iff_mem _ (voteOf_keys_nodup js) _ _).mp hl
    exact List.mem_map.mpr ⟨(d, maxVotesOf js), List.mem_filter.mpr ⟨hm, by simp⟩, rfl⟩

theorem topOf_nodup (js : List Judgement) : (topOf js).Nodup := by
  rw [topOf]
  have hsub : ((voteOf js).filter (fun p => p.2 == maxVotesOf js)).map Prod.fst |>.Sublist
      ((voteOf js).map Prod.fst) := (List.filter_sublist _).map Prod.fst
  exact hsub.nodup (voteOf_keys_nodup js)

theorem voteFold_ne_nil (v : List (String × Nat)) (d : String) : voteFold v d ≠ [] := by
  by_cases hv : v.any (fun p => p.1 == d)
  · rw [voteFold, if_pos hv]
    intro hc
    rw [List.map_eq_nil_iff] at hc
    rw [hc] at hv
    simp at hv
  · rw [voteFold, if_neg hv]
    simp

theorem foldl_voteFold_ne_nil (js : List Judgement) :
    ∀ acc : List (String × Nat), acc ≠ [] →
      js.foldl (fun v j => voteFold v j.decision) acc ≠ [] := by
  induction js with
  | nil => exact fun acc h => h
  | cons k js ih => exact fun acc _ => ih _ (voteFold_ne_nil acc k.decision)

theorem voteOf_ne_nil (js : List Judgement) (h : js ≠ []) : voteOf js ≠ [] := by
  rw [voteOf]
  rcases js with _ | ⟨j, js⟩
  · exact absurd rfl h
  · rw [List.foldl_cons]
    exact foldl_voteFold_ne_nil js _ (voteFold_ne_nil [] j.decision)

/-! ### String-order and stable-sort lemmas -/

theorem charListLt_asymm : ∀ as bs : List Char,
    charListLt as bs = true → charListLt bs as = false := by
  intro as
  induction as with
  | nil => intro bs h; cases bs <;> simp_all [charListLt]
  | cons a as ih =>
    intro bs h
    cases bs with
    | nil => simp [charListLt] at h
    | cons b bs =>
      simp only [charListLt, Bool.or_eq_true, Bool.and_eq_true, decide_eq_true_eq,
        beq_iff_eq] at h ⊢
      simp only [Bool.or_eq_false_iff, Bool.and_eq_false_iff, decide_eq_false_iff_not]
      rcases h with h | ⟨he, hr⟩
      · refine ⟨fun hc => absurd (lt_trans h hc) (lt_irrefl a), Or.inl ?_⟩
        simp only [beq_eq_false_iff_ne]
        exact fun hc => absurd (hc ▸ h) (lt_irrefl b)
      · rw [he]
        exact ⟨lt_irrefl b, Or.inr (ih bs hr)⟩

theorem charListLt_trichotomy : ∀ as bs : List Char,
    charListLt as bs = true ∨ as = bs ∨ charListLt bs as = true := by
  intro as
  induction as with
  | nil => intro bs; cases bs <;> simp [charListLt]
  | cons a as ih =>
    intro bs
    cases bs with
    | nil => simp [charListLt]
    | cons b bs =>
      rcases lt_trichotomy a b with hab | hab | hab
      · exact Or.inl (by simp [charListLt]; left; exact hab)
      · rcases ih bs with h | h | h
        · exact Or.inl (by simp [charListLt, hab, h])
        · exact Or.inr (Or.inl (by rw [hab, h]))
        · exact Or.inr (Or.inr (by simp [charListLt, hab, h]))
      · exact Or.inr (Or.inr (by simp [charListLt]; left; exact hab))

theorem charListLt_trans : ∀ as bs cs : List Char,
    charListLt as bs = true → charListLt bs cs = true → charListLt as cs = true := by
  intro as
  induction as with
  | nil =>
    intro bs cs h1 h2
    cases bs with
    | nil => simp [charListLt] at h1
    | cons b bs => cases cs with
      | nil => simp [charListLt] at h2
      | cons c cs => simp [charListLt]
  | cons a as ih =>
    intro bs cs h1 h2
    cases bs with
    | nil => simp [charListLt] at h1
    | cons b bs =>
      cases cs with
      | nil => simp [charListLt] at h2
      | cons c cs =>
        simp only [charListLt, Bool.or_eq_true, Bool.and_eq_true, decide_eq_true_eq,
          beq_iff_eq] at h1 h2 ⊢
        rcases h1 with h1 | ⟨he1, hr1⟩
        · rcases h2 with h2 | ⟨he2, hr2⟩
          · exact Or.inl (lt_trans h1 h2)
          · exact Or.inl (he2 ▸ h1)
        · rcases h2 with h2 | ⟨he2, hr2⟩
          · exact Or.inl (he1 ▸ h2)
          · exact Or.inr ⟨he1.trans he2, ih bs cs hr1 hr2⟩

theorem strLe_total (a b : String) : strLe a b = true ∨ strLe b a = true := by
  rcases charListLt_trichotomy a.toList b.toList with h | h | h
  · refine Or.inl ?_
    simp only [strLe, strLt, Bool.or_eq_true]
    exact Or.inl h
  · have he : a = b := by
      cases a
      cases b
      exact congrArg String.mk h
    refine Or.inl ?_
    simp [strLe, he]
  · refine Or.inr ?_
    simp only [strLe, strLt, Bool.or_eq_true]
    exact Or.inl h

theorem strLe_trans (a b c : String) (h1 : strLe a b = true) (h2 : strLe b c = true) :
    strLe a c = true := by
  simp only [strLe, Bool.or_eq_true, beq_iff_eq] at h1 h2 ⊢
  rcases h1 with h1 | h1
  · rcases h2 with h2 | h2
    · exact Or.inl (charListLt_trans _ _ _ h1 h2)
    · exact Or.inl (h2 ▸ h1)
  · rcases h2 with h2 | h2
    · exact Or.inl (h1 ▸ h2)
    · exact Or.inr (h1.trans h2)

theorem strLe_antisymm (a b : String) (h1 : strLe a b = true) (h2 : strLe b a = true) :
    a = b := by
  simp only [strLe, Bool.or_eq_true, beq_iff_eq] at h1 h2
  rcases h1 with h1 | h1
  · rcases h2 with h2 | h2
    · exact absurd h2 (by simp [strLt] at h1 ⊢; exact charListLt_asymm _ _ h1)
    · exact h2.symm
  · exact h1

theorem mem_insertSorted {α : Type} (le : α → α → Bool) (x : α) (l : List α) (z : α) :
    z ∈ insertSorted le x l ↔ z = x ∨ z ∈ l := by
  induction l with
  | nil => simp [insertSorted]
  | cons y ys ih =>
    rw [insertSorted]
    by_cases h : le x y
    · rw [if_pos h]
      simp only [List.mem_cons]
    · rw [if_neg h]
      simp only [List.mem_cons, ih]
      tauto

theorem insertSorted_perm {α : Type} (le : α → α → Bool) (x : α) (l : List α) :
    (insertSorted le x l).Perm (x :: l) := by
  induction l with
  | nil => exact List.Perm.refl _
  | cons y ys ih =>
    by_cases h : le x y
    · simp [insertSorted, h]
    · rw [insertSorted, if_neg h]
      exact (ih.cons y).trans (List.Perm.swap x y ys)

theorem pySort_perm {α : Type} (le : α → α → Bool) (l : List α) :
    (pySort le l).Perm l := by
  induction l with
  | nil => exact List.Perm.refl _
  | cons x xs ih =>
    rw [pySort, List.foldr_cons]
    exact (insertSorted_perm le x _).trans (ih.cons x)

theorem insertSorted_pairwise {α : Type} (le : α → α → Bool)
    (htot : ∀ a b, le a b = true ∨ le b a = true)
    (htrans : ∀ a b c, le a b = true → le b c = true → le a c = true)
    (x : α) (l : List α)
    (h : l.Pairwise (fun a b => le a b = true)) :
    (insertSorted le x l).Pairwise (fun a b => le a b = true) := by
  induction l with
  | nil => simp [insertSorted]
  | cons y ys ih =>
    rcases List.pairwise_cons.mp h with ⟨hy, hys⟩
    rw [insertSorted]
    by_cases hxy : le x y
    · rw [if_pos hxy]
      refine List.pairwise_cons.mpr ⟨?_, h⟩
      intro z hz
      rcases List.mem_cons.mp hz with hz | hz
      · exact hz ▸ hxy
      · exact htrans x y z hxy (hy z hz)
    · rw [if_neg hxy]
      refine List.pairwise_cons.mpr ⟨?_, ih hys⟩
      intro z hz
      rcases (mem_insertSorted le x ys z).mp hz with hz | hz
      · rcases htot x y with h1 | h1
        · exact absurd h1 hxy
        · exact hz ▸ h1
      · exact hy z hz

theorem pySort_pairwise {α : Type} (le : α → α → Bool)
    (htot : ∀ a b, le a b = true ∨ le b a = true)
    (htrans : ∀ a b c, le a b = true → le b c = true → le a c = true)
    (l : List α) : (pySort le l).Pairwise (fun a b => le a b = true) := by
  induction l with
  | nil => simp [pySort]
  | cons x xs ih =>
    rw [pySort, List.foldr_cons]
    exact insertSorted_pairwise le htot htrans x _ ih

/-! ### Permutation invariance of the vote aggregate -/

theorem maxVotesOf_le_of_perm {js js' : List Judgement} (h : js.Perm js') :
    maxVotesOf js ≤ maxVotesOf js' := by
  rcases foldl_max_mem ((voteOf js).map (·.2)) 0 with h0 | hm
  · rw [maxVotesOf, h0]
    exact Nat.zero_le _
  · rcases List.mem_map.mp hm with ⟨p, hp, he⟩
    rcases p with ⟨d0, c0⟩
    simp only at he
    have he' : c0 = maxVotesOf js := he
    rw [he'] at hp
    have hl : lookupVal (voteOf js) d0 = some (maxVotesOf js) :=
      (lookupVal_eq_some_iff_mem _ (voteOf_keys_nodup js) _ _).mpr hp
    rw [voteOf_lookup] at hl
    split at hl
    · exact absurd hl (by simp)
    · rename_i hcnt
      injection hl with hl
      have hcnt' : (js'.map (·.decision)).count d0 = maxVotesOf js := by
        rw [← (h.map (·.decision)).count_eq]
        exact hl
      have hmem : (d0, maxVotesOf js) ∈ voteOf js' := by
        rw [← lookupVal_eq_some_iff_mem _ (voteOf_keys_nodup js'), voteOf_lookup]
        rw [(h.map (·.decision)).count_eq d0] at hcnt
        rw [if_neg hcnt, hcnt']
      have hv : maxVotesOf js ∈ (voteOf js').map (·.2) :=
        List.mem_map.mpr ⟨(d0, maxVotesOf js), hmem, rfl⟩
      exact (le_foldl_max _ 0).2 _ hv

theorem maxVotesOf_perm {js js' : List Judgement} (h : js.Perm js') :
    maxVotesOf js = maxVotesOf js' :=
  Nat.le_antisymm (maxVotesOf_le_of_perm h) (maxVotesOf_le_of_perm h.symm)

theorem mem_topOf_iff_count (js : List Judgement) (d : String) :
    d ∈ topOf js ↔
      (js.map (·.decision)).count d ≠ 0 ∧ (js.map (·.decision)).count d = maxVotesOf js := by
  rw [mem_topOf, voteOf_lookup]
  split
  · rename_i hc
    simp [hc]
  · rename_i hc
    simp [hc]

theorem topOf_perm {js js' : List Judgement} (h : js.Perm js') :
    (topOf js).Perm (topOf js') := by
  refine (List.perm_ext_iff_of_nodup (topOf_nodup js) (topOf_nodup js')).mpr (fun d => ?_)
  rw [mem_topOf_iff_count, mem_topOf_iff_count, (h.map (·.decision)).count_eq d,
    maxVotesOf_perm h]

/-! ### Severity, tie-break and label-union lemmas -/

theorem severityOf_cases (d : String) (s : Nat) (h : severityOf d = some s) :
    (d = "KEEP" ∧ s = 0) ∨ (d = "KEEP_WITH_TAG" ∧ s = 1) ∨ (d = "REMOVE" ∧ s = 2) := by
  rw [severityOf, SEVERITY] at h
  by_cases h1 : "KEEP" = d
  · rw [List.find?_cons_of_pos _ (by simp [h1])] at h
    have h' : some (0 : Nat) = some s := h
    injection h' with h'
    exact Or.inl ⟨h1.symm, h'.symm⟩
  · rw [List.find?_cons_of_neg _ (by simp [h1])] at h
    by_cases h2 : "KEEP_WITH_TAG" = d
    · rw [List.find?_cons_of_pos _ (by simp [h2])] at h
      have h' : some (1 : Nat) = some s := h
      injection h' with h'
      exact Or.inr (Or.inl ⟨h2.symm, h'.symm⟩)
    · rw [List.find?_cons_of_neg _ (by simp [h2])] at h
      by_cases h3 : "REMOVE" = d
      · rw [List.find?_cons_of_pos _ (by simp [h3])] at h
        have h' : some (2 : Nat) = some s := h
        injection h' with h'
        exact Or.inr (Or.inr ⟨h3.symm, h'.symm⟩)
      · rw [List.find?_cons_of_neg _ (by simp [h3])] at h
        simp at h

theorem severityOf_inj (d1 d2 : String) (s : Nat)
    (h1 : severityOf d1 = some s) (h2 : severityOf d2 = some s) : d1 = d2 := by
  rcases severityOf_cases d1 s h1 with ⟨e1, f1⟩ | ⟨e1, f1⟩ | ⟨e1, f1⟩ <;>
    rcases severityOf_cases d2 s h2 with ⟨e2, f2⟩ | ⟨e2, f2⟩ | ⟨e2, f2⟩ <;>
    first
      | (exfalso; omega)
      | (rw [e1, e2])

theorem severityOf_of_mem (d : String) (h : d ∈ DECISIONS) : ∃ s, severityOf d = some s := by
  rw [DECISIONS] at h
  simp only [List.mem_cons, List.not_mem_nil, or_false] at h
  rcases h with rfl | rfl | rfl
  · exact ⟨0, rfl⟩
  · exact ⟨1, rfl⟩
  · exact ⟨2, rfl⟩

theorem pickMaxFirst_spec (l : List (String × Nat)) (h : l ≠ []) :
    pickMaxFirst l ∈ l ∧ ∀ q ∈ l, q.2 ≤ (pickMaxFirst l).2 := by
  rcases l with _ | ⟨p, ps⟩
  · exact absurd rfl h
  · rw [pickMaxFirst]
    clear h
    induction ps generalizing p with
    | nil => simp
    | cons q ps ih =>
      rw [List.foldl_cons]
      by_cases hpq : p.2 < q.2
      · rw [if_pos hpq]
        rcases ih q with ⟨hmem, hle⟩
        refine ⟨?_, ?_⟩
        · rcases List.mem_cons.mp hmem with hm | hm
          · rw [hm]; exact List.mem_cons.mpr (Or.inr (List.mem_cons_self q ps))
          · exact List.mem_cons.mpr (Or.inr (List.mem_cons.mpr (Or.inr hm)))
        · intro z hz
          rcases List.mem_cons.mp hz with hz | hz
          · exact hz ▸ le_trans (Nat.le_of_lt hpq) (hle q (List.mem_cons_self q ps))
          · exact hle z hz
      · rw [if_neg hpq]
        rcases ih p with ⟨hmem, hle⟩
        refine ⟨?_, ?_⟩
        · rcases List.mem_cons.mp hmem with hm | hm
          · exact List.mem_cons.mpr (Or.inl hm)
          · exact List.mem_cons.mpr (Or.inr (List.mem_cons.mpr (Or.inr hm)))
        · intro z hz
          rcases List.mem_cons.mp hz with hz | hz
          · exact hz ▸ hle p (List.mem_cons_self p ps)
          · rcases List.mem_cons.mp hz with hz | hz
            · exact hz ▸ le_trans (Nat.le_of_not_lt hpq) (hle p (List.mem_cons_self p ps))
            · exact hle z (List.mem_cons.mpr (Or.inr hz))

theorem mapM_sev_some (top : List String) (pairs : List (String × Nat))
    (h : top.mapM (fun d => (severityOf d).map (fun s => (d, s))) = some pairs) :
    pairs.map Prod.fst = top ∧ ∀ p ∈ pairs, severityOf p.1 = some p.2 := by
  induction top generalizing pairs with
  | nil =>
    simp only [List.mapM_nil, pure, Option.some_inj] at h
    rw [← h]
    simp
  | cons d top ih =>
    rw [List.mapM_cons] at h
    rcases hs : severityOf d with _ | s
    · rw [hs] at h
      simp at h
    · rw [hs] at h
      rcases ht : top.mapM (fun d => (severityOf d).map (fun s => (d, s))) with _ | rest
      · rw [ht] at h
        simp at h
      · rw [ht] at h
        have h' : some ((d, s) :: rest) = some pairs := h
        injection h' with h'
        rcases ih rest ht with ⟨ih1, ih2⟩
        rw [← h']
        refine ⟨by simp [ih1], ?_⟩
        intro p hp
        rcases List.mem_cons.mp hp with hp | hp
        · rw [hp]
          exact hs
        · exact ih2 p hp

theorem mapM_sev_exists (top : List String)
    (h : ∀ d ∈ top, ∃ s, severityOf d = some s) :
    ∃ pairs, top.mapM (fun d => (severityOf d).map (fun s => (d, s))) = some pairs := by
  induction top with
  | nil => exact ⟨[], rfl⟩
  | cons d top ih =>
    rcases h d (List.mem_cons_self d top) with ⟨s, hs⟩
    rcases ih (fun d' hd' => h d' (List.mem_cons.mpr (Or.inr hd'))) with ⟨rest, hrest⟩
    refine ⟨(d, s) :: rest, ?_⟩
    rw [List.mapM_cons, hs, hrest]
    rfl

/-! ### Head/last helpers and the tie-break dissection -/

theorem headD_mem {α : Type} (l : List α) (z : α) (h : l ≠ []) : l.headD z ∈ l := by
  cases l with
  | nil => exact absurd rfl h
  | cons a t => exact List.mem_cons_self a t

theorem getLastD_mem {α : Type} (l : List α) (z : α) (h : l ≠ []) : l.getLastD z ∈ l := by
  induction l generalizing z with
  | nil => exact absurd rfl h
  | cons a t ih =>
    cases t with
    | nil => simp [List.getLastD]
    | cons b u =>
      rw [List.getLastD_cons]
      exact List.mem_cons.mpr (Or.inr (ih z (by simp)))

theorem headD_map_fst (pairs : List (String × Nat)) (h : pairs ≠ []) (w : String)
    (z : String × Nat) : (pairs.map Prod.fst).headD w = (pairs.headD z).1 := by
  cases pairs with
  | nil => exact absurd rfl h
  | cons p ps => rfl

theorem getLastD_map_fst (pairs : List (String × Nat)) (h : pairs ≠ []) (w : String)
    (z : String × Nat) : (pairs.map Prod.fst).getLastD w = (pairs.getLastD z).1 := by
  induction pairs generalizing z with
  | nil => exact absurd rfl h
  | cons p ps ih =>
    cases ps with
    | nil => rfl
    | cons q qs =>
      rw [List.map_cons, List.getLastD_cons, List.getLastD_cons]
      exact ih (by simp) z

theorem nodup_headD_ne_getLastD {α : Type} (l : List α) (hn : l.Nodup)
    (hl : 1 < l.length) (z w : α) : l.headD z ≠ l.getLastD w := by
  cases l with
  | nil => simp at hl
  | cons a t =>
    cases t with
    | nil => simp at hl
    | cons b u =>
      rcases List.nodup_cons.mp hn with ⟨ha, _⟩
      rw [List.headD_cons, List.getLastD_cons]
      intro hc
      exact ha (hc ▸ getLastD_mem (b :: u) w (by simp))

theorem topOf_ne_nil (js : List Judgement) (h : js ≠ []) : topOf js ≠ [] := by
  have hv : voteOf js ≠ [] := voteOf_ne_nil js h
  rcases foldl_max_mem ((voteOf js).map (·.2)) 0 with h0 | hm
  · rcases hv' : voteOf js with _ | ⟨p, ps⟩
    · exact absurd hv' hv
    · have hp : (p.1, p.2) ∈ voteOf js := by rw [hv']; exact List.mem_cons_self _ _
      have hle : p.2 ≤ maxVotesOf js :=
        (le_foldl_max _ 0).2 _ (List.mem_map.mpr ⟨p, hp, rfl⟩)
      have hz : maxVotesOf js = 0 := h0
      have hp2 : p.2 = maxVotesOf js := by omega
      intro hc
      have := (mem_topOf js p.1).mpr
        ((lookupVal_eq_some_iff_mem _ (voteOf_keys_nodup js) _ _).mpr (hp2 ▸ hp))
      rw [hc] at this
      exact List.not_mem_nil _ this
  · rcases List.mem_map.mp hm with ⟨p, hp, he⟩
    rcases p with ⟨d0, c0⟩
    simp only at he
    have he' : c0 = maxVotesOf js := he
    rw [he'] at hp
    intro hc
    have := (mem_topOf js d0).mpr
      ((lookupVal_eq_some_iff_mem _ (voteOf_keys_nodup js) _ _).mpr hp)
    rw [hc] at this
    exact List.not_mem_nil _ this

/-- Dissection of `tieDecision` in the genuine-tie case: the severity lookup
table is consulted for every tied decision, and the result follows the
guard. -/
theorem tieDecision_tie_eq (js : List Judgement) (h2 : 1 < (topOf js).length)
    (pairs : List (String × Nat))
    (hm : (topOf js).mapM (fun d => (severityOf d).map (fun s => (d, s))) = some pairs) :
    tieDecision js =
      some (if (pairs.headD ("", 0)).2 = (pairs.getLastD ("", 0)).2
        then "KEEP_WITH_TAG" else (pickMaxFirst pairs).1) := by
  have h1 : ¬ (topOf js).length = 1 := by omega
  by_cases hg : (pairs.headD ("", 0)).2 = (pairs.getLastD ("", 0)).2
  · rw [if_pos hg, tieDecision, if_neg h1, hm]
    show (if 1 < (topOf js).length ∧ (pairs.headD ("", 0)).2 = (pairs.getLastD ("", 0)).2
      then some "KEEP_WITH_TAG" else some (pickMaxFirst pairs).1) = some "KEEP_WITH_TAG"
    exact if_pos ⟨h2, hg⟩
  · rw [if_neg hg, tieDecision, if_neg h1, hm]
    show (if 1 < (topOf js).length ∧ (pairs.headD ("", 0)).2 = (pairs.getLastD ("", 0)).2
      then some "KEEP_WITH_TAG" else some (pickMaxFirst pairs).1) = some (pickMaxFirst pairs).1
    exact if_neg (fun hc => hg hc.2)

/-- In a genuine tie, the head and last tied decisions never share a
severity rank: the tied decisions are distinct keys of the `SEVERITY`
table, whose ranks are injective. -/
theorem tie_guard_false (js : List Judgement) (h2 : 1 < (topOf js).length)
    (pairs : List (String × Nat))
    (hm : (topOf js).mapM (fun d => (severityOf d).map (fun s => (d, s))) = some pairs) :
    (pairs.headD ("", 0)).2 ≠ (pairs.getLastD ("", 0)).2 := by
  rcases mapM_sev_some _ _ hm with ⟨hfst, hsev⟩
  have hpne : pairs ≠ [] := by
    intro hc
    rw [hc] at hfst
    have : (topOf js).length = 0 := by rw [← hfst]; rfl
    omega
  have hhead : pairs.headD ("", 0) ∈ pairs := headD_mem _ _ hpne
  have hlast : pairs.getLastD ("", 0) ∈ pairs := getLastD_mem _ _ hpne
  have hs1 := hsev _ hhead
  have hs2 := hsev _ hlast
  intro hg
  have heq : (pairs.headD ("", 0)).1 = (pairs.getLastD ("", 0)).1 :=
    severityOf_inj _ _ _ hs1 (hg ▸ hs2)
  have hne : (pairs.map Prod.fst).headD "" ≠ (pairs.map Prod.fst).getLastD "" := by
    rw [hfst]
    exact nodup_headD_ne_getLastD _ (topOf_nodup js) h2 "" ""
  rw [headD_map_fst _ hpne "" ("", 0), getLastD_map_fst _ hpne "" ("", 0)] at hne
  exact hne heq

/-- The spine of `consensus` on a non-empty judgement list. -/
theorem consensus_cons (j : Judgement) (js : List Judgement) :
    consensus (j :: js) = (tieDecision (j :: js)).map (fun fd => consensusAgg fd (j :: js)) :=
  rfl

theorem topOf_nil : topOf ([] : List Judgement) = [] := rfl

theorem consensus_some_decision (js : List Judgement) (c : Judgement)
    (h : consensus js = some c) (hne : js ≠ []) :
    tieDecision js = some c.decision ∧ c = consensusAgg c.decision js := by
  rcases js with _ | ⟨j, t⟩
  · exact absurd rfl hne
  · rw [consensus_cons] at h
    rcases hd : tieDecision (j :: t) with _ | fd
    · rw [hd] at h
      simp at h
    · rw [hd] at h
      have h' : some (consensusAgg fd (j :: t)) = some c := h
      injection h' with h'
      have hdec : c.decision = fd := by rw [← h']; rfl
      exact ⟨congrArg some hdec.symm, by rw [hdec]; exact h'.symm⟩

theorem tieDecision_mapM_some (js : List Judgement) (fd : String)
    (h : tieDecision js = some fd) (h2 : 1 < (topOf js).length) :
    ∃ pairs, (topOf js).mapM (fun d => (severityOf d).map (fun s => (d, s))) = some pairs := by
  rcases hm : (topOf js).mapM (fun d => (severityOf d).map (fun s => (d, s))) with _ | pairs
  · rw [tieDecision, if_neg (by omega), hm] at h
    exact absurd h (by simp)
  · exact ⟨pairs, rfl⟩

/-- C5: on a tie among top-voted decisions, `consensus` picks the most
severe under `KEEP(0) < KEEP_WITH_TAG(1) < REMOVE(2)`; in particular a
`[KEEP, REMOVE]` pair (in either order) yields `REMOVE`; and whenever the
entire tied set shares one severity rank the decision is forced to
`KEEP_WITH_TAG`. -/
theorem claim_C5_tie_severity :
    (∀ j1 j2 : Judgement, j1.decision = "KEEP" → j2.decision = "REMOVE" →
      (consensus [j1, j2]).map (·.decision) = some "REMOVE" ∧
      (consensus [j2, j1]).map (·.decision) = some "REMOVE") ∧
    (∀ js : List Judgement, ∀ c : Judgement, consensus js = some c →
      1 < (topOf js).length →
      c.decision ∈ topOf js ∧
      ∃ sc, severityOf c.decision = some sc ∧
        ∀ d ∈ topOf js, ∀ sd, severityOf d = some sd → sd ≤ sc) ∧
    (∀ js : List Judgement, ∀ c : Judgement, consensus js = some c →
      1 < (topOf js).length →
      (∀ d₁ ∈ topOf js, ∀ d₂ ∈ topOf js, severityOf d₁ = severityOf d₂) →
      c.decision = "KEEP_WITH_TAG") := by
  refine ⟨?_, ?_, ?_⟩
  · intro j1 j2 h1 h2
    rcases j1 with ⟨d1, l1, a1, q1, c1, r1⟩
    rcases j2 with ⟨d2, l2, a2, q2, c2, r2⟩
    have h1' : d1 = "KEEP" := h1
    have h2' : d2 = "REMOVE" := h2
    subst h1'
    subst h2'
    exact ⟨rfl, rfl⟩
  · intro js c hc h2
    have hne : js ≠ [] := by
      intro hc0
      rw [hc0, topOf_nil] at h2
      simp at h2
    rcases consensus_some_decision js c hc hne with ⟨ht, _⟩
    rcases tieDecision_mapM_some js c.decision ht h2 with ⟨pairs, hm⟩
    rcases mapM_sev_some _ _ hm with ⟨hfst, hsev⟩
    have hg := tie_guard_false js h2 pairs hm
    rw [tieDecision_tie_eq js h2 pairs hm, if_neg hg] at ht
    injection ht with ht
    have hpne : pairs ≠ [] := by
      intro hc0
      rw [hc0] at hfst
      have : (topOf js).length = 0 := by rw [← hfst]; rfl
      omega
    rcases pickMaxFirst_spec pairs hpne with ⟨hmem, hle⟩
    refine ⟨?_, (pickMaxFirst pairs).2, ?_, ?_⟩
    · rw [← ht, ← hfst]
      exact List.mem_map.mpr ⟨pickMaxFirst pairs, hmem, rfl⟩
    · rw [← ht]
      exact hsev _ hmem
    · intro d hd sd hsd
      rw [← hfst] at hd
      rcases List.mem_map.mp hd with ⟨p, hp, he⟩
      have := hsev p hp
      rw [he, hsd] at this
      injection this with this
      rw [this]
      exact hle p hp
  · intro js c hc h2 hall
    have hne : js ≠ [] := by
      intro hc0
      rw [hc0, topOf_nil] at h2
      simp at h2
    rcases consensus_some_decision js c hc hne with ⟨ht, _⟩
    rcases tieDecision_mapM_some js c.decision ht h2 with ⟨pairs, hm⟩
    rcases mapM_sev_some _ _ hm with ⟨hfst, hsev⟩
    have hpne : pairs ≠ [] := by
      intro hc0
      rw [hc0] at hfst
      have : (topOf js).length = 0 := by rw [← hfst]; rfl
      omega
    have hhead : pairs.headD ("", 0) ∈ pairs := headD_mem _ _ hpne
    have hlast : pairs.getLastD ("", 0) ∈ pairs := getLastD_mem _ _ hpne
    have hmem1 : (pairs.headD ("", 0)).1 ∈ topOf js := by
      rw [← hfst]
      exact List.mem_map.mpr ⟨_, hhead, rfl⟩
    have hmem2 : (pairs.getLastD ("", 0)).1 ∈ topOf js := by
      rw [← hfst]
      exact List.mem_map.mpr ⟨_, hlast, rfl⟩
    have hg : (pairs.headD ("", 0)).2 = (pairs.getLastD ("", 0)).2 := by
      have he := hall _ hmem1 _ hmem2
      have h1 := hsev _ hhead
      have h2' := hsev _ hlast
      rw [h1, h2'] at he
      injection he
    rw [tieDecision_tie_eq js h2 pairs hm, if_pos hg] at ht
    injection ht with ht
    exact ht.symm

/-- Witness for C5: two explicit judgements with decisions `KEEP` and
`REMOVE` reach consensus `REMOVE` in both presentation orders. -/
theorem claim_C5_witness :
    (consensus [⟨"KEEP", [], 1, 1, 1, "x"⟩, ⟨"REMOVE", [], 0, 0, 0, "y"⟩]).map (·.decision)
        = some "REMOVE" ∧
    (consensus [⟨"REMOVE", [], 0, 0, 0, "y"⟩, ⟨"KEEP", [], 1, 1, 1, "x"⟩]).map (·.decision)
        = some "REMOVE" := by
  have h := claim_C5_tie_severity.1 ⟨"KEEP", [], 1, 1, 1, "x"⟩ ⟨"REMOVE", [], 0, 0, 0, "y"⟩
    rfl rfl
  exact ⟨h.1, h.2⟩


/-! ### Permutation invariance of the consensus decision and labels -/

theorem flatMap_perm {js js' : List Judgement} (h : js.Perm js')
    (f : Judgement → List String) : (js.flatMap f).Perm (js'.flatMap f) := by
  rw [List.flatMap_def, List.flatMap_def]
  exact (h.map f).flatten

theorem unionLabels_perm {js js' : List Judgement} (h : js.Perm js') :
    unionLabels js = unionLabels js' := by
  have hfm := (flatMap_perm h (·.labels)).dedup
  haveI : IsAntisymm String (fun a b => strLe a b = true) :=
    ⟨fun a b h1 h2 => strLe_antisymm a b h1 h2⟩
  have hperm : (unionLabels js).Perm (unionLabels js') := by
    rw [unionLabels, unionLabels]
    exact ((pySort_perm strLe _).trans hfm).trans (pySort_perm strLe _).symm
  exact List.eq_of_perm_of_sorted hperm
    (pySort_pairwise strLe strLe_total strLe_trans _)
    (pySort_pairwise strLe strLe_total strLe_trans _)

theorem tieDecision_perm {js js' : List Judgement} (h : js.Perm js') :
    tieDecision js = tieDecision js' := by
  by_cases hnil : js = []
  · rw [hnil] at h ⊢
    rw [(List.Perm.eq_nil h.symm : js' = [])]
  · have hne' : js' ≠ [] := by
      intro hc
      rw [hc] at h
      exact hnil h.eq_nil
    have htop := topOf_perm h
    have hlen := htop.length_eq
    by_cases h1 : (topOf js).length = 1
    · rw [tieDecision, if_pos h1, tieDecision, if_pos (hlen ▸ h1)]
      rcases ht : topOf js with _ | ⟨d, rest⟩
      · rw [ht] at h1
        simp at h1
      · have hrest : rest = [] := by
          rw [ht] at h1
          simpa using h1
        subst hrest
        rw [ht] at htop
        have ht' : topOf js' = [d] := (List.singleton_perm.mp htop).symm
        rw [ht']
    · have h1' : ¬ (topOf js').length = 1 := by omega
      have h2 : 1 < (topOf js).length := by
        have := topOf_ne_nil js hnil
        have := List.length_pos.mpr this
        omega
      have h2' : 1 < (topOf js').length := by omega
      rcases hm : (topOf js).mapM (fun d => (severityOf d).map (fun s => (d, s)))
          with _ | pairs
      · rcases hm' : (topOf js').mapM (fun d => (severityOf d).map (fun s => (d, s)))
            with _ | pairs'
        · rw [tieDecision, if_neg h1, hm, tieDecision, if_neg h1', hm']
        · rcases mapM_sev_some _ _ hm' with ⟨hfst', hsev'⟩
          have hall : ∀ d ∈ topOf js, ∃ s, severityOf d = some s := by
            intro d hd
            rcases List.mem_map.mp (hfst' ▸ htop.mem_iff.mp hd) with ⟨p, hp, he⟩
            exact ⟨p.2, he ▸ hsev' p hp⟩
          rcases mapM_sev_exists _ hall with ⟨pairs0, hm0⟩
          rw [hm0] at hm
          cases hm
      · rcases mapM_sev_some _ _ hm with ⟨hfst, hsev⟩
        rcases hm' : (topOf js').mapM (fun d => (severityOf d).map (fun s => (d, s)))
            with _ | pairs'
        · have hall : ∀ d ∈ topOf js', ∃ s, severityOf d = some s := by
            intro d hd
            rcases List.mem_map.mp (hfst ▸ htop.mem_iff.mpr hd) with ⟨p, hp, he⟩
            exact ⟨p.2, he ▸ hsev p hp⟩
          rcases mapM_sev_exists _ hall with ⟨pairs0, hm0⟩
          rw [hm0] at hm'
          cases hm'
        · rcases mapM_sev_some _ _ hm' with ⟨hfst', hsev'⟩
          rw [tieDecision_tie_eq js h2 pairs hm, tieDecision_tie_eq js' h2' pairs' hm',
            if_neg (tie_guard_false js h2 pairs hm),
            if_neg (tie_guard_false js' h2' pairs' hm')]
          have hpne : pairs ≠ [] := by
            intro hc0
            rw [hc0] at hfst
            have : (topOf js).length = 0 := by rw [← hfst]; rfl
            omega
          have hpne' : pairs' ≠ [] := by
            intro hc0
            rw [hc0] at hfst'
            have : (topOf js').length = 0 := by rw [← hfst']; rfl
            omega
          rcases pickMaxFirst_spec pairs hpne with ⟨hmem, hle⟩
          rcases pickMaxFirst_spec pairs' hpne' with ⟨hmem', hle'⟩
          have hsevP := hsev _ hmem
          have hsevP' := hsev' _ hmem'
          have hPmem' : (pickMaxFirst pairs).1 ∈ topOf js' :=
            htop.mem_iff.mp (hfst ▸ List.mem_map.mpr ⟨_, hmem, rfl⟩)
          have hPmem : (pickMaxFirst pairs').1 ∈ topOf js :=
            htop.mem_iff.mpr (hfst' ▸ List.mem_map.mpr ⟨_, hmem', rfl⟩)
          rcases List.mem_map.mp (hfst' ▸ hPmem') with ⟨q', hq', hqe'⟩
          rcases List.mem_map.mp (hfst ▸ hPmem) with ⟨q, hq, hqe⟩
          have hq'sev := hsev' _ hq'
          have hqsev := hsev _ hq
          rw [hqe'] at hq'sev
          rw [hqe] at hqsev
          rw [hsevP] at hq'sev
          rw [hsevP'] at hqsev
          injection hq'sev with e1
          injection hqsev with e2
          have hle1 : (pickMaxFirst pairs).2 ≤ (pickMaxFirst pairs').2 :=
            e1 ▸ hle' q' hq'
          have hle2 : (pickMaxFirst pairs').2 ≤ (pickMaxFirst pairs).2 :=
            e2 ▸ hle q hq
          have hseq : (pickMaxFirst pairs).2 = (pickMaxFirst pairs').2 := by omega
          have : (pickMaxFirst pairs).1 = (pickMaxFirst pairs').1 :=
            severityOf_inj _ _ _ hsevP (hseq ▸ hsevP')
          rw [this]

/-- Amended C3: `consensus` is a pure function, and on any two
permutations of the same judgement list it agrees on decision, labels,
scores and confidence (everything except the order-sensitive rationale);
moreover the aggregated labels are exactly the sorted, duplicate-free union
of the replica labels. The rationale concatenation is the one
order-dependent field; the counterexample theorem exhibits it. -/
theorem claim_C3_consensus_multiset (js js' : List Judgement) (h : js.Perm js') :
    (consensus js).map consensusObs = (consensus js').map consensusObs ∧
    (∀ c, consensus js = some c →
      List.Pairwise (fun a b => strLe a b = true) c.labels ∧ c.labels.Nodup ∧
      (∀ l, l ∈ c.labels ↔ ∃ j ∈ js, l ∈ j.labels)) := by
  constructor
  · by_cases hnil : js = []
    · rw [hnil] at h ⊢
      rw [h.symm.eq_nil]
    · have hne' : js' ≠ [] := fun hc => hnil ((hc ▸ h).eq_nil)
      rcases js with _ | ⟨j, t⟩
      · exact absurd rfl hnil
      · rcases js' with _ | ⟨j', t'⟩
        · exact absurd rfl hne'
        · rw [consensus_cons, consensus_cons, tieDecision_perm h]
          rcases td : tieDecision (j' :: t') with _ | fd
          · rfl
          · show some (consensusObs (consensusAgg fd (j :: t)))
                = some (consensusObs (consensusAgg fd (j' :: t')))
            congr 1
            simp only [consensusObs, consensusAgg]
            rw [unionLabels_perm h, (h.map (·.arkts_score)).sum_eq,
              (h.map (·.quality_score)).sum_eq, (h.map (·.confidence)).sum_eq,
              h.length_eq]
  · intro c hc
    rcases js with _ | ⟨j, t⟩
    · rw [show consensus [] = some ⟨"KEEP_WITH_TAG", [], 3, 3, 3/10, "empty-judgements"⟩
        from rfl] at hc
      injection hc with hc
      rw [← hc]
      refine ⟨by simp, by simp, fun l => ?_⟩
      simp
    · rcases consensus_some_decision _ c hc (by simp) with ⟨_, hagg⟩
      have hlab : c.labels = unionLabels (j :: t) := by rw [hagg]; rfl
      rw [hlab]
      refine ⟨pySort_pairwise strLe strLe_total strLe_trans _, ?_, fun l => ?_⟩
      · exact ((pySort_perm strLe _).nodup_iff).mpr (List.nodup_dedup _)
      · rw [unionLabels]
        rw [(pySort_perm strLe _).mem_iff, List.mem_dedup, List.mem_flatMap]

/-- Counterexample for C3 as frozen: two single-`KEEP` replica sets that
are permutations of each other produce different consensus rationales
(the rationale concatenation follows presentation order). -/
theorem claim_C3_counterexample :
    ([⟨"KEEP", [], 0, 0, 0, "a"⟩, ⟨"KEEP", [], 0, 0, 0, "b"⟩] : List Judgement).Perm
      [⟨"KEEP", [], 0, 0, 0, "b"⟩, ⟨"KEEP", [], 0, 0, 0, "a"⟩] ∧
    (consensus [⟨"KEEP", [], 0, 0, 0, "a"⟩, ⟨"KEEP", [], 0, 0, 0, "b"⟩]).map (·.rationale) ≠
      (consensus [⟨"KEEP", [], 0, 0, 0, "b"⟩, ⟨"KEEP", [], 0, 0, 0, "a"⟩]).map (·.rationale) := by
  constructor
  · exact List.Perm.swap _ _ _
  · intro hc
    have h1 : (consensus [(⟨"KEEP", [], 0, 0, 0, "a"⟩ : Judgement),
        ⟨"KEEP", [], 0, 0, 0, "b"⟩]).map (·.rationale) = some "a; b" := rfl
    have h2 : (consensus [(⟨"KEEP", [], 0, 0, 0, "b"⟩ : Judgement),
        ⟨"KEEP", [], 0, 0, 0, "a"⟩]).map (·.rationale) = some "b; a" := rfl
    rw [h1, h2] at hc
    injection hc with hc
    have : "a; b".data = "b; a".data := congrArg String.data hc
    simp at this

/-- Witness for C3 (amended): applying the permutation-invariance theorem
to an explicit two-judgement swap. -/
theorem claim_C3_witness :
    (consensus [⟨"KEEP", ["u"], 1, 2, 1, "x"⟩, ⟨"REMOVE", ["t"], 3, 0, 0, "y"⟩]).map consensusObs =
      (consensus [⟨"REMOVE", ["t"], 3, 0, 0, "y"⟩, ⟨"KEEP", ["u"], 1, 2, 1, "x"⟩]).map consensusObs :=
  (claim_C3_consensus_multiset _ _ (List.Perm.swap _ _ _)).1

/-! ### Well-formedness of every pipeline-produced judgement (C9) -/

theorem list_sum_le_mul (l : List ℚ) (b : ℚ) (h : ∀ x ∈ l, x ≤ b) :
    l.sum ≤ b * l.length := by
  induction l with
  | nil => simp
  | cons x xs ih =>
    rw [List.sum_cons, List.length_cons]
    have h1 := h x (List.mem_cons_self x xs)
    have h2 := ih (fun y hy => h y (List.mem_cons.mpr (Or.inr hy)))
    push_cast
    calc x + xs.sum ≤ b + b * xs.length := add_le_add h1 h2
      _ = b * (xs.length + 1) := by ring

theorem list_mul_le_sum (l : List ℚ) (a : ℚ) (h : ∀ x ∈ l, a ≤ x) :
    a * l.length ≤ l.sum := by
  induction l with
  | nil => simp
  | cons x xs ih =>
    rw [List.sum_cons, List.length_cons]
    have h1 := h x (List.mem_cons_self x xs)
    have h2 := ih (fun y hy => h y (List.mem_cons.mpr (Or.inr hy)))
    push_cast
    calc a * (xs.length + 1) = a + a * xs.length := by ring
      _ ≤ x + xs.sum := add_le_add h1 h2

theorem mean_bounds (l : List ℚ) (hl : l ≠ []) (a b : ℚ)
    (h : ∀ x ∈ l, a ≤ x ∧ x ≤ b) :
    a ≤ l.sum / (l.length : ℚ) ∧ l.sum / (l.length : ℚ) ≤ b := by
  have hn : (0 : ℚ) < (l.length : ℚ) := by
    have := List.length_pos.mpr hl
    exact_mod_cast this
  constructor
  · rw [le_div_iff₀ hn]
    exact list_mul_le_sum l a (fun x hx => (h x hx).1)
  · rw [div_le_iff₀ hn]
    exact list_sum_le_mul l b (fun x hx => (h x hx).2)

theorem WFJudgement_mk (d : String) (ls : List String) (a q c : ℚ) (r : String)
    (h1 : d ∈ DECISIONS) (h2 : 0 ≤ a) (h3 : a ≤ 5) (h4 : 0 ≤ q) (h5 : q ≤ 5)
    (h6 : 0 ≤ c) (h7 : c ≤ 1) (h8 : r.length ≤ 400) :
    WFJudgement ⟨d, ls, a, q, c, r⟩ :=
  ⟨h1, h2, h3, h4, h5, h6, h7, h8⟩

theorem topOf_decisions (js : List Judgement) (d : String) (h : d ∈ topOf js) :
    ∃ j ∈ js, j.decision = d := by
  rcases (mem_topOf_iff_count js d).mp h with ⟨hc, _⟩
  have : d ∈ js.map (·.decision) := by
    by_contra hc'
    exact hc (List.count_eq_zero.mpr hc')
  rcases List.mem_map.mp this with ⟨j, hj, he⟩
  exact ⟨j, hj, he⟩

theorem tieDecision_some_of_enum (js : List Judgement) (hne : js ≠ [])
    (hd : ∀ j ∈ js, j.decision ∈ DECISIONS) :
    ∃ fd, tieDecision js = some fd ∧ fd ∈ DECISIONS := by
  have htopD : ∀ d ∈ topOf js, d ∈ DECISIONS := by
    intro d hdm
    rcases topOf_decisions js d hdm with ⟨j, hj, he⟩
    exact he ▸ hd j hj
  by_cases h1 : (topOf js).length = 1
  · refine ⟨(topOf js).headD "", by rw [tieDecision, if_pos h1], ?_⟩
    exact htopD _ (headD_mem _ _ (topOf_ne_nil js hne))
  · have h2 : 1 < (topOf js).length := by
      have := List.length_pos.mpr (topOf_ne_nil js hne)
      omega
    rcases mapM_sev_exists (topOf js)
        (fun d hdm => severityOf_of_mem d (htopD d hdm)) with ⟨pairs, hm⟩
    rcases mapM_sev_some _ _ hm with ⟨hfst, _⟩
    rw [tieDecision_tie_eq js h2 pairs hm,
      if_neg (tie_guard_false js h2 pairs hm)]
    have hpne : pairs ≠ [] := by
      intro hc0
      rw [hc0] at hfst
      have : (topOf js).length = 0 := by rw [← hfst]; rfl
      omega
    refine ⟨(pickMaxFirst pairs).1, rfl, ?_⟩
    exact htopD _ (hfst ▸ List.mem_map.mpr ⟨_, (pickMaxFirst_spec pairs hpne).1, rfl⟩)

/-- C9: every judgement the pipeline can produce is well-formed — those
from successful validation, the `API_ERROR` and `PARSE_ERROR` fallbacks,
everything the per-request path emits, and the consensus of well-formed
judgements (which in particular always exists: the severity lookups cannot
fail on pipeline decisions). -/
theorem claim_C9_wellformed :
    (∀ v j, validate_judgement v = some j → WFJudgement j) ∧
    (∀ m, WFJudgement (apiErrorJudgement m)) ∧
    WFJudgement parseErrorJudgement ∧
    (∀ loads raw, WFJudgement (judgeFromText loads raw)) ∧
    (∀ loads o, WFJudgement (judgeOfOutcome loads o)) ∧
    (∀ js, (∀ j ∈ js, WFJudgement j) →
      ∃ c, consensus js = some c ∧ WFJudgement c) := by
  have hval : ∀ v j, validate_judgement v = some j → WFJudgement j := by
    intro v j h
    rcases validate_some_spec v j h with ⟨⟨d, x, _, _, hcanon, hdec⟩, h1, h2, h3, h4, h5, h6, h7⟩
    exact ⟨hdec ▸ hcanon, h1, h2, h3, h4, h5, h6, h7⟩
  have hapi : ∀ m, WFJudgement (apiErrorJudgement m) := by
    intro m
    exact WFJudgement_mk "KEEP_WITH_TAG" ["API_ERROR"] 3 3 (1/5) (pyTrunc m 200)
      (by decide) (by norm_num) (by norm_num) (by norm_num) (by norm_num) (by norm_num)
      (by norm_num) (le_trans (pyTrunc_length_le m 200) (by norm_num))
  have hparse : WFJudgement parseErrorJudgement :=
    WFJudgement_mk "KEEP_WITH_TAG" ["PARSE_ERROR"] 3 3 (3/10) "Failed to parse model JSON"
      (by decide) (by norm_num) (by norm_num) (by norm_num) (by norm_num) (by norm_num)
      (by norm_num) (by decide)
  have htext : ∀ loads raw, WFJudgement (judgeFromText loads raw) := by
    intro loads raw
    rw [judgeFromText]
    rcases he : extract_json_object loads raw with _ | o
    · exact hparse
    · show WFJudgement
        ((if pyTruthy o then validate_judgement o else none).getD parseErrorJudgement)
      by_cases ht : pyTruthy o
      · rw [if_pos ht]
        rcases hv : validate_judgement o with _ | j
        · exact hparse
        · exact hval o j hv
      · rw [if_neg ht]
        exact hparse
  refine ⟨hval, hapi, hparse, htext, ?_, ?_⟩
  · intro loads o
    rcases o with m | t
    · exact hapi m
    · exact htext loads t
  · intro js hwf
    rcases hjs : js with _ | ⟨j, t⟩
    · refine ⟨⟨"KEEP_WITH_TAG", [], 3, 3, 3/10, "empty-judgements"⟩, rfl, ?_⟩
      exact WFJudgement_mk "KEEP_WITH_TAG" [] 3 3 (3/10) "empty-judgements"
        (by decide) (by norm_num) (by norm_num) (by norm_num) (by norm_num) (by norm_num)
        (by norm_num) (by decide)
    · rw [← hjs]
      have hne : js ≠ [] := by rw [hjs]; simp
      rcases tieDecision_some_of_enum js hne (fun j hj => (hwf j hj).1) with ⟨fd, htd, hfdD⟩
      refine ⟨consensusAgg fd js, ?_, ?_⟩
      · rw [hjs, consensus_cons, ← hjs, htd]
        rfl
      · have hnem : js.map (·.arkts_score) ≠ [] := by
          rw [hjs]; simp
        have hnem2 : js.map (·.quality_score) ≠ [] := by
          rw [hjs]; simp
        have hnem3 : js.map (·.confidence) ≠ [] := by
          rw [hjs]; simp
        have hb1 := mean_bounds (js.map (·.arkts_score)) hnem 0 5 (by
          intro x hx
          rcases List.mem_map.mp hx with ⟨j0, hj0, he0⟩
          exact he0 ▸ ⟨(hwf j0 hj0).2.1, (hwf j0 hj0).2.2.1⟩)
        have hb2 := mean_bounds (js.map (·.quality_score)) hnem2 0 5 (by
          intro x hx
          rcases List.mem_map.mp hx with ⟨j0, hj0, he0⟩
          exact he0 ▸ ⟨(hwf j0 hj0).2.2.2.1, (hwf j0 hj0).2.2.2.2.1⟩)
        have hb3 := mean_bounds (js.map (·.confidence)) hnem3 0 1 (by
          intro x hx
          rcases List.mem_map.mp hx with ⟨j0, hj0, he0⟩
          exact he0 ▸ ⟨(hwf j0 hj0).2.2.2.2.2.1, (hwf j0 hj0).2.2.2.2.2.2.1⟩)
        have hlen1 : (js.map (·.arkts_score)).length = js.length := List.length_map _ _
        have hlen2 : (js.map (·.quality_score)).length = js.length := List.length_map _ _
        have hlen3 : (js.map (·.confidence)).length = js.length := List.length_map _ _
        rw [hlen1] at hb1
        rw [hlen2] at hb2
        rw [hlen3] at hb3
        exact ⟨hfdD, hb1.1, hb1.2, hb2.1, hb2.2, hb3.1, hb3.2, pyTrunc_length_le _ _⟩

/-- Witness for C9: the consensus clause applied to one explicit
well-formed judgement. -/
theorem claim_C9_witness :
    ∃ c, consensus [⟨"KEEP", [], 1, 2, 1, "ok"⟩] = some c ∧ WFJudgement c := by
  refine claim_C9_wellformed.2.2.2.2.2 [⟨"KEEP", [], 1, 2, 1, "ok"⟩] ?_
  intro j hj
  rw [List.mem_singleton] at hj
  subst hj
  exact WFJudgement_mk "KEEP" [] 1 2 1 "ok"
    (by decide) (by norm_num) (by norm_num) (by norm_num) (by norm_num) (by norm_num)
    (by norm_num) (by decide)

/-! ### Strata-building lemmas (`buildStrata`) -/

section Strata
variable {α κ : Type} [DecidableEq κ]

theorem insertStratum_keys_nodup (st : List (κ × List α)) (k : κ) (r : α)
    (h : (st.map Prod.fst).Nodup) : ((insertStratum st k r).map Prod.fst).Nodup := by
  by_cases hv : st.any (fun p => decide (p.1 = k))
  · rw [insertStratum, if_pos hv]
    have he : (st.map (fun p => if p.1 = k then (p.1, p.2 ++ [r]) else p)).map Prod.fst
        = st.map Prod.fst := by
      rw [List.map_map]
      refine List.map_congr_left (fun p _ => ?_)
      by_cases hp : p.1 = k <;> simp [hp]
    rw [he]
    exact h
  · rw [insertStratum, if_neg hv]
    have hd : k ∉ st.map Prod.fst := by
      intro hc
      rcases List.mem_map.mp hc with ⟨p, hp, he⟩
      exact hv (List.any_eq_true.mpr ⟨p, hp, by simp [he]⟩)
    simp only [List.map_append, List.map_cons, List.map_nil]
    exact List.Nodup.append h (List.nodup_singleton k)
      (by simpa [List.disjoint_singleton] using hd)

theorem insertStratum_sumLen (st : List (κ × List α)) (k : κ) (r : α)
    (h : (st.map Prod.fst).Nodup) :
    ((insertStratum st k r).map (·.2.length)).sum = (st.map (·.2.length)).sum + 1 := by
  by_cases hv : st.any (fun p => decide (p.1 = k))
  · rw [insertStratum, if_pos hv]
    induction st with
    | nil => simp at hv
    | cons p st ih =>
      simp only [List.map_cons, List.nodup_cons] at h
      by_cases hp : p.1 = k
      · have hrest : st.map (fun q => if q.1 = k then (q.1, q.2 ++ [r]) else q) = st := by
          conv_rhs => rw [← List.map_id st]
          refine List.map_congr_left (fun q hq => ?_)
          have : ¬ q.1 = k := by
            intro hc
            exact h.1 (hp ▸ hc ▸ List.mem_map.mpr ⟨q, hq, rfl⟩)
          simp [this]
        simp only [List.map_cons, if_pos hp, hrest, List.sum_cons]
        simp
        omega
      · have hv' : st.any (fun q => decide (q.1 = k)) := by
          rcases List.any_eq_true.mp hv with ⟨q, hq, hqk⟩
          rcases List.mem_cons.mp hq with hq | hq
          · rw [hq] at hqk
            exact absurd (of_decide_eq_true hqk) hp
          · exact List.any_eq_true.mpr ⟨q, hq, hqk⟩
        simp only [List.map_cons, if_neg hp, List.sum_cons]
        rw [ih h.2 hv']
        omega
  · rw [insertStratum, if_neg hv]
    simp

theorem insertStratum_flat_sub (st : List (κ × List α)) (k : κ) (r : α) (x : α)
    (h : x ∈ st.flatMap (·.2)) : x ∈ (insertStratum st k r).flatMap (·.2) := by
  by_cases hv : st.any (fun p => decide (p.1 = k))
  · rw [insertStratum, if_pos hv]
    rcases List.mem_flatMap.mp h with ⟨p, hp, hx⟩
    refine List.mem_flatMap.mpr ⟨if p.1 = k then (p.1, p.2 ++ [r]) else p, List.mem_map.mpr ⟨p, hp, rfl⟩, ?_⟩
    by_cases hp1 : p.1 = k <;> simp [hp1, hx]
  · rw [insertStratum, if_neg hv]
    rw [List.flatMap_append]
    exact List.mem_append.mpr (Or.inl h)

theorem insertStratum_flat_self (st : List (κ × List α)) (k : κ) (r : α) :
    r ∈ (insertStratum st k r).flatMap (·.2) := by
  by_cases hv : st.any (fun p => decide (p.1 = k))
  · rw [insertStratum, if_pos hv]
    rcases List.any_eq_true.mp hv with ⟨p, hp, hpk⟩
    have hpk' : p.1 = k := by simpa using hpk
    refine List.mem_flatMap.mpr ⟨(p.1, p.2 ++ [r]), List.mem_map.mpr ⟨p, hp, by simp [hpk']⟩, by simp⟩
  · rw [insertStratum, if_neg hv]
    rw [List.flatMap_append]
    exact List.mem_append.mpr (Or.inr (by simp))

theorem insertStratum_ne_nil (st : List (κ × List α)) (k : κ) (r : α)
    (h : ∀ p ∈ st, p.2 ≠ []) : ∀ p ∈ insertStratum st k r, p.2 ≠ [] := by
  by_cases hv : st.any (fun p => decide (p.1 = k))
  · rw [insertStratum, if_pos hv]
    intro p hp
    rcases List.mem_map.mp hp with ⟨q, hq, he⟩
    by_cases hq1 : q.1 = k
    · rw [← he]
      simp [hq1]
    · rw [← he]
      simp only [hq1, if_false]
      exact h q hq
  · rw [insertStratum, if_neg hv]
    intro p hp
    rcases List.mem_append.mp hp with hp | hp
    · exact h p hp
    · rw [List.mem_singleton.mp hp]
      simp

theorem buildStrata_keys_nodup (f : α → κ) (rows : List α) :
    ((buildStrata f rows).map Prod.fst).Nodup := by
  rw [buildStrata]
  generalize hacc : ([] : List (κ × List α)) = acc
  have hn : (acc.map Prod.fst).Nodup := by rw [← hacc]; simp
  clear hacc
  induction rows generalizing acc with
  | nil => exact hn
  | cons r rows ih => exact ih _ (insertStratum_keys_nodup _ _ _ hn)

theorem buildStrata_sumLen (f : α → κ) (rows : List α) :
    ((buildStrata f rows).map (·.2.length)).sum = rows.length := by
  rw [buildStrata]
  have main : ∀ (rs : List α) (acc : List (κ × List α)), (acc.map Prod.fst).Nodup →
      ((rs.foldl (fun st r => insertStratum st (f r) r) acc).map (·.2.length)).sum
        = (acc.map (·.2.length)).sum + rs.length := by
    intro rs
    induction rs with
    | nil => intro acc _; simp
    | cons r rs ih =>
      intro acc hn
      rw [List.foldl_cons, ih _ (insertStratum_keys_nodup _ _ _ hn),
        insertStratum_sumLen _ _ _ hn, List.length_cons]
      omega
  simpa using main rows []

theorem buildStrata_flat_mem (f : α → κ) (rows : List α) (x : α) (h : x ∈ rows) :
    x ∈ (buildStrata f rows).flatMap (·.2) := by
  rw [buildStrata]
  have main : ∀ (rs : List α) (acc : List (κ × List α)) (y : α),
      (y ∈ acc.flatMap (·.2) ∨ y ∈ rs) →
      y ∈ (rs.foldl (fun st r => insertStratum st (f r) r) acc).flatMap (·.2) := by
    intro rs
    induction rs with
    | nil =>
      intro acc y hy
      rcases hy with hy | hy
      · exact hy
      · cases hy
    | cons r rs ih =>
      intro acc y hy
      rw [List.foldl_cons]
      rcases hy with hy | hy
      · exact ih _ y (Or.inl (insertStratum_flat_sub _ _ _ _ hy))
      · rcases List.mem_cons.mp hy with hy | hy
        · exact ih _ y (Or.inl (hy ▸ insertStratum_flat_self acc (f r) r))
        · exact ih _ y (Or.inr hy)
  exact main rows [] x (Or.inr h)

theorem buildStrata_ne_nil (f : α → κ) (rows : List α) :
    ∀ p ∈ buildStrata f rows, p.2 ≠ [] := by
  rw [buildStrata]
  have main : ∀ (rs : List α) (acc : List (κ × List α)), (∀ p ∈ acc, p.2 ≠ []) →
      ∀ p ∈ rs.foldl (fun st r => insertStratum st (f r) r) acc, p.2 ≠ [] := by
    intro rs
    induction rs with
    | nil => exact fun acc h => h
    | cons r rs ih =>
      intro acc h
      rw [List.foldl_cons]
      exact ih _ (insertStratum_ne_nil _ _ _ h)
  exact main rows [] (by simp)

end Strata

/-! ### Allocation arithmetic (`allocFor`, `spareInit`) -/

theorem allocFor_le (total n sz : Nat) : allocFor total n sz ≤ sz :=
  Nat.min_le_right _ _

theorem allocFor_pos (total n sz : Nat) (h : 0 < sz) : 1 ≤ allocFor total n sz :=
  le_min (Nat.le_max_left _ _) h

theorem allocFor_eq_of_lt (total n sz : Nat) (h0 : 0 < total) (h : total < n) :
    allocFor total n sz = sz := by
  rcases Nat.eq_zero_or_pos sz with hz | hz
  · subst hz
    simp [allocFor]
  · have h1 : sz * total / total ≤ sz * n / total :=
      Nat.div_le_div_right (Nat.mul_le_mul_left sz (Nat.le_of_lt h))
    rw [Nat.mul_div_cancel sz h0] at h1
    exact Nat.min_eq_right (le_max_of_le_right h1)

theorem map_sum_le_of_le (l : List Nat) (g : Nat → Nat) (h : ∀ x ∈ l, g x ≤ x) :
    (l.map g).sum ≤ l.sum := by
  induction l with
  | nil => simp
  | cons x l ih =>
    simp only [List.map_cons, List.sum_cons]
    exact Nat.add_le_add (h x (List.mem_cons_self x l)) (ih (fun y hy => h y (List.mem_cons_of_mem x hy)))

theorem getD_set_eq (l : List Nat) (i : Nat) (x : Nat) (h : i < l.length) :
    (l.set i x).getD i 0 = x := by
  induction l generalizing i with
  | nil => simp at h
  | cons y l ih =>
    cases i with
    | zero => rfl
    | succ i => exact ih i (by simpa using h)

theorem getD_set_ne (l : List Nat) (i j : Nat) (x : Nat) (h : i ≠ j) :
    (l.set i x).getD j 0 = l.getD j 0 := by
  induction l generalizing i j with
  | nil => simp
  | cons y l ih =>
    cases i with
    | zero =>
      cases j with
      | zero => exact absurd rfl h
      | succ j => rfl
    | succ i =>
      cases j with
      | zero => rfl
      | succ j => exact ih i j (fun hc => h (by rw [hc]))

theorem sum_set_getD (l : List Nat) (i : Nat) (x : Nat) (h : i < l.length) :
    (l.set i x).sum + l.getD i 0 = l.sum + x := by
  induction l generalizing i with
  | nil => simp at h
  | cons y l ih =>
    cases i with
    | zero => simp [List.set]; omega
    | succ i =>
      have := ih i (by simpa using h)
      simp only [List.set, List.sum_cons, List.getD_cons_succ]
      omega

theorem sum_pos_exists (l : List (Nat × Nat)) (h : 0 < (l.map (·.2)).sum) :
    ∃ p ∈ l, 0 < p.2 := by
  induction l with
  | nil => simp at h
  | cons p l ih =>
    rcases Nat.eq_zero_or_pos p.2 with hz | hz
    · simp only [List.map_cons, List.sum_cons, hz, Nat.zero_add] at h
      rcases ih h with ⟨q, hq, hq2⟩
      exact ⟨q, List.mem_cons_of_mem p hq, hq2⟩
    · exact ⟨p, List.mem_cons_self p l, hz⟩

theorem sum_range_getD_sub : ∀ (a b : List Nat), a.length = b.length →
    (∀ i, b.getD i 0 ≤ a.getD i 0) →
    ((List.range a.length).map (fun i => a.getD i 0 - b.getD i 0)).sum = a.sum - b.sum ∧
      b.sum ≤ a.sum := by
  intro a
  induction a with
  | nil =>
    intro b hl _
    have : b = [] := List.eq_nil_of_length_eq_zero (by simpa using hl.symm)
    subst this
    simp
  | cons x a ih =>
    intro b hl hp
    cases b with
    | nil => simp at hl
    | cons y b =>
      have hl' : a.length = b.length := by simpa using hl
      have hp' : ∀ i, b.getD i 0 ≤ a.getD i 0 := fun i => by
        have := hp (i + 1)
        simpa using this
      rcases ih b hl' hp' with ⟨hsum, hle⟩
      have hy : y ≤ x := by simpa using hp 0
      constructor
      · rw [List.length_cons, List.range_succ_eq_map, List.map_cons, List.map_map,
          List.sum_cons]
        have hmap : (List.range a.length).map
            ((fun i => (x :: a).getD i 0 - (y :: b).getD i 0) ∘ Nat.succ)
            = (List.range a.length).map (fun i => a.getD i 0 - b.getD i 0) := by
          refine List.map_congr_left (fun i _ => ?_)
          simp
        rw [hmap, hsum]
        simp only [List.getD_cons_zero, List.sum_cons]
        omega
      · simp only [List.sum_cons]
        omega

theorem filter_pos_sum_snd (l : List (Nat × Nat)) :
    ((l.filter (fun p => decide (0 < p.2))).map (·.2)).sum = (l.map (·.2)).sum := by
  induction l with
  | nil => rfl
  | cons p l ih =>
    by_cases hp : 0 < p.2
    · rw [List.filter_cons_of_pos (by simpa using hp), List.map_cons, List.sum_cons, ih,
        List.map_cons, List.sum_cons]
    · rw [List.filter_cons_of_neg (by simpa using hp), ih, List.map_cons, List.sum_cons]
      omega

theorem spareInit_mem (sizes alloc : List Nat) :
    ∀ p ∈ spareInit sizes alloc,
      p.1 < sizes.length ∧ p.2 = sizes.getD p.1 0 - alloc.getD p.1 0 ∧ 0 < p.2 := by
  intro p hp
  have hp' := (pySort_perm _ _).mem_iff.mp hp
  rcases List.mem_filter.mp hp' with ⟨hpm, hppos⟩
  rcases List.mem_map.mp hpm with ⟨i, hi, he⟩
  refine ⟨?_, ?_, by simpa using hppos⟩
  · rw [← he]
    exact List.mem_range.mp hi
  · rw [← he]

theorem spareInit_keys_nodup (sizes alloc : List Nat) :
    ((spareInit sizes alloc).map Prod.fst).Nodup := by
  refine ((pySort_perm _ _).map Prod.fst).nodup_iff.mpr ?_
  have hsub : ((((List.range sizes.length).map
        (fun i => (i, sizes.getD i 0 - alloc.getD i 0))).filter
        (fun p => decide (0 < p.2))).map Prod.fst).Sublist
      (((List.range sizes.length).map
        (fun i => (i, sizes.getD i 0 - alloc.getD i 0))).map Prod.fst) :=
    (List.filter_sublist _).map Prod.fst
  refine hsub.nodup ?_
  rw [List.map_map]
  have : (Prod.fst ∘ fun i => (i, sizes.getD i 0 - alloc.getD i 0)) = id := rfl
  rw [this, List.map_id]
  exact List.nodup_range _

theorem spareInit_sum (sizes alloc : List Nat) (hl : sizes.length = alloc.length)
    (hp : ∀ i, alloc.getD i 0 ≤ sizes.getD i 0) :
    ((spareInit sizes alloc).map (·.2)).sum = sizes.sum - alloc.sum := by
  have h1 : ((spareInit sizes alloc).map (·.2)).sum
      = ((((List.range sizes.length).map
          (fun i => (i, sizes.getD i 0 - alloc.getD i 0))).filter
          (fun p => decide (0 < p.2))).map (·.2)).sum :=
    ((pySort_perm (fun a b : Nat × Nat => decide (b.2 ≤ a.2)) _).map
      (fun p : Nat × Nat => p.2)).sum_eq
  rw [h1, filter_pos_sum_snd, List.map_map]
  have h2 : ((fun p : Nat × Nat => p.2) ∘ fun i => (i, sizes.getD i 0 - alloc.getD i 0))
      = fun i => sizes.getD i 0 - alloc.getD i 0 := rfl
  rw [h2]
  exact (sum_range_getD_sub sizes alloc hl hp).1

/-! ### Positional list lemmas for the redistribution loop -/

theorem getD_pair_set_eq (l : List (Nat × Nat)) (i : Nat) (x : Nat × Nat)
    (h : i < l.length) : (l.set i x).getD i (0, 0) = x := by
  induction l generalizing i with
  | nil => simp at h
  | cons y l ih =>
    cases i with
    | zero => rfl
    | succ i => exact ih i (by simpa using h)

theorem getD_pair_set_ne (l : List (Nat × Nat)) (i j : Nat) (x : Nat × Nat)
    (h : i ≠ j) : (l.set i x).getD j (0, 0) = l.getD j (0, 0) := by
  induction l generalizing i j with
  | nil => simp
  | cons y l ih =>
    cases i with
    | zero =>
      cases j with
      | zero => exact absurd rfl h
      | succ j => rfl
    | succ i =>
      cases j with
      | zero => rfl
      | succ j => exact ih i j (fun hc => h (by rw [hc]))

theorem getD_pair_mem (l : List (Nat × Nat)) (pos : Nat) (h : pos < l.length) :
    l.getD pos (0, 0) ∈ l := by
  induction l generalizing pos with
  | nil => simp at h
  | cons y l ih =>
    cases pos with
    | zero => exact List.mem_cons_self y l
    | succ pos => exact List.mem_cons_of_mem y (ih pos (by simpa using h))

theorem mem_getD_pair (l : List (Nat × Nat)) (x : Nat × Nat) (h : x ∈ l) :
    ∃ pos, pos < l.length ∧ l.getD pos (0, 0) = x := by
  induction l with
  | nil => cases h
  | cons y l ih =>
    rcases List.mem_cons.mp h with h | h
    · exact ⟨0, by simp, h.symm⟩
    · rcases ih h with ⟨pos, hpos, he⟩
      exact ⟨pos + 1, by simpa using hpos, he⟩

theorem getD_map_pf (f : Nat × Nat → Nat) (hf : f (0, 0) = 0) (l : List (Nat × Nat))
    (i : Nat) : (l.map f).getD i 0 = f (l.getD i (0, 0)) := by
  induction l generalizing i with
  | nil => exact hf.symm
  | cons y l ih =>
    cases i with
    | zero => rfl
    | succ i => exact ih i

theorem set_getD_self (l : List Nat) (pos : Nat) :
    l.set pos (l.getD pos 0) = l := by
  induction l generalizing pos with
  | nil => rfl
  | cons y l ih =>
    cases pos with
    | zero => rfl
    | succ pos => simp only [List.set, List.getD_cons_succ, ih pos]

theorem map_fst_set_same (l : List (Nat × Nat)) (pos : Nat) (x : Nat × Nat)
    (hfst : x.1 = (l.getD pos (0, 0)).1) :
    (l.set pos x).map Prod.fst = l.map Prod.fst := by
  rw [List.map_set, hfst]
  have h : (l.getD pos (0, 0)).1 = (l.map Prod.fst).getD pos 0 :=
    (getD_map_pf Prod.fst rfl l pos).symm
  rw [h, set_getD_self]

theorem nodup_fst_getD_ne (l : List (Nat × Nat)) (h : (l.map Prod.fst).Nodup)
    (i j : Nat) (hi : i < l.length) (hj : j < l.length) (hij : i ≠ j) :
    (l.getD i (0, 0)).1 ≠ (l.getD j (0, 0)).1 := by
  induction l generalizing i j with
  | nil => simp at hi
  | cons y l ih =>
    simp only [List.map_cons, List.nodup_cons] at h
    cases i with
    | zero =>
      cases j with
      | zero => exact absurd rfl hij
      | succ j =>
        intro hc
        have hj' : j < l.length := by simpa using hj
        exact h.1 (hc ▸ List.mem_map.mpr ⟨l.getD j (0, 0), getD_pair_mem l j hj', rfl⟩)
    | succ i =>
      cases j with
      | zero =>
        intro hc
        have hi' : i < l.length := by simpa using hi
        exact h.1 (hc ▸ List.mem_map.mpr ⟨l.getD i (0, 0), getD_pair_mem l i hi', rfl⟩)
      | succ j =>
        exact ih h.2 i j (by simpa using hi) (by simpa using hj)
          (fun hc => hij (by rw [hc]))

theorem cycle_hit (len idx pos : Nat) (hlen : 0 < len) (hpos : pos < len) :
    ∃ k, k < len ∧ (idx + k) % len = pos := by
  have ha : idx % len < len := Nat.mod_lt idx hlen
  by_cases hc : idx % len ≤ pos
  · refine ⟨pos - idx % len, by omega, ?_⟩
    rw [Nat.add_mod, Nat.mod_eq_of_lt (show pos - idx % len < len by omega)]
    rw [show idx % len + (pos - idx % len) = pos by omega, Nat.mod_eq_of_lt hpos]
  · refine ⟨pos + len - idx % len, by omega, ?_⟩
    rw [Nat.add_mod, Nat.mod_eq_of_lt (show pos + len - idx % len < len by omega)]
    rw [show idx % len + (pos + len - idx % len) = pos + len by omega]
    rw [Nat.add_mod_right, Nat.mod_eq_of_lt hpos]

theorem redisLoop_zero (fuel : Nat) (alloc : List Nat) (spare : List (Nat × Nat))
    (idx : Nat) : redisLoop fuel alloc spare 0 idx = (alloc, 0) := by
  cases fuel with
  | zero => rfl
  | succ f => simp [redisLoop]
theorem redisLoop_progress : ∀ (k fuel : Nat) (alloc : List Nat) (spare : List (Nat × Nat))
    (rem idx : Nat), 0 < rem → 0 < spare.length →
    0 < (spare.getD ((idx + k) % spare.length) (0, 0)).2 →
    (∀ j, j < k → (spare.getD ((idx + j) % spare.length) (0, 0)).2 = 0) →
    k + 1 ≤ fuel →
    redisLoop fuel alloc spare rem idx =
      redisLoop (fuel - (k + 1))
        (alloc.set (spare.getD ((idx + k) % spare.length) (0, 0)).1
          (alloc.getD (spare.getD ((idx + k) % spare.length) (0, 0)).1 0 + 1))
        (spare.set ((idx + k) % spare.length)
          ((spare.getD ((idx + k) % spare.length) (0, 0)).1,
           (spare.getD ((idx + k) % spare.length) (0, 0)).2 - 1))
        (rem - 1) (idx + k + 1) := by
  intro k
  induction k with
  | zero =>
    intro fuel alloc spare rem idx hrem hlen hpos _ hfuel
    simp only [Nat.add_zero] at hpos ⊢
    cases fuel with
    | zero => omega
    | succ f =>
      rw [redisLoop, if_neg (show ¬(rem = 0 ∨ spare.length = 0) by omega)]
      show (if 0 < (spare.getD (idx % spare.length) (0, 0)).2 then
          redisLoop f
            (alloc.set (spare.getD (idx % spare.length) (0, 0)).1
              (alloc.getD (spare.getD (idx % spare.length) (0, 0)).1 0 + 1))
            (spare.set (idx % spare.length)
              ((spare.getD (idx % spare.length) (0, 0)).1,
               (spare.getD (idx % spare.length) (0, 0)).2 - 1))
            (rem - 1) (idx + 1)
        else redisLoop f alloc spare rem (idx + 1)) = _
      rw [if_pos hpos, show f + 1 - (0 + 1) = f by omega]
  | succ k ih =>
    intro fuel alloc spare rem idx hrem hlen hpos hzero hfuel
    cases fuel with
    | zero => omega
    | succ f =>
      have h0 : (spare.getD (idx % spare.length) (0, 0)).2 = 0 := by
        have h := hzero 0 (Nat.succ_pos k)
        rw [Nat.add_zero] at h
        exact h
      rw [redisLoop, if_neg (show ¬(rem = 0 ∨ spare.length = 0) by omega)]
      show (if 0 < (spare.getD (idx % spare.length) (0, 0)).2 then
          redisLoop f
            (alloc.set (spare.getD (idx % spare.length) (0, 0)).1
              (alloc.getD (spare.getD (idx % spare.length) (0, 0)).1 0 + 1))
            (spare.set (idx % spare.length)
              ((spare.getD (idx % spare.length) (0, 0)).1,
               (spare.getD (idx % spare.length) (0, 0)).2 - 1))
            (rem - 1) (idx + 1)
        else redisLoop f alloc spare rem (idx + 1)) = _
      rw [if_neg (show ¬0 < (spare.getD (idx % spare.length) (0, 0)).2 by omega)]
      have he1 : idx + 1 + k = idx + (k + 1) := by omega
      have hpos' : 0 < (spare.getD ((idx + 1 + k) % spare.length) (0, 0)).2 := by
        rw [he1]; exact hpos
      have hzero' : ∀ j, j < k → (spare.getD ((idx + 1 + j) % spare.length) (0, 0)).2 = 0 := by
        intro j hj
        have := hzero (j + 1) (by omega)
        rw [show idx + 1 + j = idx + (j + 1) by omega]
        exact this
      have hfuel' : k + 1 ≤ f := by omega
      rw [ih f alloc spare rem (idx + 1) hrem hlen hpos' hzero' hfuel', he1]
      rw [show f - (k + 1) = f + 1 - (k + 1 + 1) by omega,
        show idx + (k + 1) + 1 = idx + 1 + k + 1 by omega]
theorem redisLoop_master (sizes : List Nat) : ∀ (rem fuel : Nat) (alloc : List Nat)
    (spare : List (Nat × Nat)) (idx : Nat),
    alloc.length = sizes.length →
    SpareInv sizes alloc spare →
    (spare.map Prod.fst).Nodup →
    (∀ i, alloc.getD i 0 ≤ sizes.getD i 0) →
    rem ≤ (spare.map (·.2)).sum →
    rem * (spare.length + 1) + 1 ≤ fuel →
    (redisLoop fuel alloc spare rem idx).2 = 0 ∧
    (redisLoop fuel alloc spare rem idx).1.sum = alloc.sum + rem ∧
    (redisLoop fuel alloc spare rem idx).1.length = alloc.length ∧
    (∀ i, (redisLoop fuel alloc spare rem idx).1.getD i 0 ≤ sizes.getD i 0) := by
  intro rem
  induction rem using Nat.strong_induction_on with
  | _ rem IH =>
  intro fuel alloc spare idx hlen hinv hnodup hbound hremle hfuel
  cases rem with
  | zero =>
    rw [redisLoop_zero]
    exact ⟨rfl, by simp, rfl, hbound⟩
  | succ m =>
    have hsumpos : 0 < (spare.map (·.2)).sum := by omega
    obtain ⟨p, hp, hp2⟩ := sum_pos_exists spare hsumpos
    obtain ⟨pos, hposlt, hpose⟩ := mem_getD_pair spare p hp
    have hspare : 0 < spare.length := by omega
    obtain ⟨kw, hkwlt, hkweq⟩ := cycle_hit spare.length idx pos hspare hposlt
    have hPex : ∃ j, 0 < (spare.getD ((idx + j) % spare.length) (0, 0)).2 :=
      ⟨kw, by rw [hkweq, hpose]; exact hp2⟩
    set k0 := Nat.find hPex with hk0def
    have hk0 : 0 < (spare.getD ((idx + k0) % spare.length) (0, 0)).2 := Nat.find_spec hPex
    have hk0min : ∀ j, j < k0 → (spare.getD ((idx + j) % spare.length) (0, 0)).2 = 0 := by
      intro j hj
      have := Nat.find_min hPex hj
      omega
    have hk0le : k0 ≤ kw := Nat.find_min' hPex (by rw [hkweq, hpose]; exact hp2)
    have hk0lt : k0 < spare.length := by omega
    have hfuelk : k0 + 1 ≤ fuel := by nlinarith
    have heq := redisLoop_progress k0 fuel alloc spare (m + 1) idx (Nat.succ_pos m)
      hspare hk0 hk0min hfuelk
    set posq := (idx + k0) % spare.length with hposqdef
    have hposqlt : posq < spare.length := Nat.mod_lt _ hspare
    set q := spare.getD posq (0, 0) with hqdef
    have hqinv := hinv posq hposqlt
    rw [← hqdef] at hqinv
    have hq1lt : q.1 < alloc.length := by omega
    set alloc' := alloc.set q.1 (alloc.getD q.1 0 + 1) with halloc'
    set spare' := spare.set posq (q.1, q.2 - 1) with hspare'
    have hlen' : alloc'.length = sizes.length := by
      rw [halloc', List.length_set]; exact hlen
    have hslen' : spare'.length = spare.length := by
      rw [hspare', List.length_set]
    have hallocq : alloc'.getD q.1 0 = alloc.getD q.1 0 + 1 :=
      getD_set_eq alloc q.1 _ hq1lt
    have hallocne : ∀ i, i ≠ q.1 → alloc'.getD i 0 = alloc.getD i 0 := by
      intro i hi
      exact getD_set_ne alloc q.1 i _ (fun hc => hi hc.symm)
    have hinv' : SpareInv sizes alloc' spare' := by
      intro pos2 hpos2
      rw [hslen'] at hpos2
      by_cases hpp : pos2 = posq
      · rw [hspare', hpp, getD_pair_set_eq spare posq _ hposqlt]
        refine ⟨show q.1 < sizes.length by omega, ?_⟩
        show alloc'.getD q.1 0 + (q.2 - 1) ≤ sizes.getD q.1 0
        rw [hallocq]
        omega
      · rw [hspare', getD_pair_set_ne spare posq pos2 _ (fun hc => hpp hc.symm)]
        have hne : (spare.getD pos2 (0, 0)).1 ≠ q.1 := by
          rw [hqdef]
          exact nodup_fst_getD_ne spare hnodup pos2 posq hpos2 hposqlt hpp
        have := hinv pos2 hpos2
        rw [hallocne _ hne]
        exact this
    have hnodup' : (spare'.map Prod.fst).Nodup := by
      rw [hspare', map_fst_set_same spare posq (q.1, q.2 - 1) (by rw [← hqdef])]
      exact hnodup
    have hbound' : ∀ i, alloc'.getD i 0 ≤ sizes.getD i 0 := by
      intro i
      by_cases hi : i = q.1
      · subst hi
        rw [hallocq]
        omega
      · rw [hallocne i hi]
        exact hbound i
    have hsum' : alloc'.sum = alloc.sum + 1 := by
      have := sum_set_getD alloc q.1 (alloc.getD q.1 0 + 1) hq1lt
      rw [← halloc'] at this
      omega
    have hsnd' : ((spare'.map (·.2)).sum) + 1 = (spare.map (·.2)).sum := by
      rw [hspare', List.map_set]
      show ((spare.map (·.2)).set posq (q.2 - 1)).sum + 1 = (spare.map (·.2)).sum
      have h1 := sum_set_getD (spare.map (·.2)) posq (q.2 - 1)
        (by rw [List.length_map]; exact hposqlt)
      have h2 : (spare.map (·.2)).getD posq 0 = q.2 := by
        rw [getD_map_pf (fun p => p.2) rfl spare posq, ← hqdef]
      rw [h2] at h1
      omega
    have hremle' : m ≤ (spare'.map (·.2)).sum := by omega
    have hfuel' : m * (spare'.length + 1) + 1 ≤ fuel - (k0 + 1) := by
      rw [hslen']
      have : (m + 1) * (spare.length + 1) = m * (spare.length + 1) + (spare.length + 1) := by
        ring
      omega
    have hind := IH m (Nat.lt_succ_self m) (fuel - (k0 + 1)) alloc' spare' (idx + k0 + 1)
      hlen' hinv' hnodup' hbound' hremle' hfuel'
    rw [heq]
    simp only [Nat.add_sub_cancel]
    refine ⟨hind.1, ?_, ?_, hind.2.2.2⟩
    · rw [hind.2.1, hsum']
      omega
    · rw [hind.2.2.1, halloc', List.length_set]
theorem redisLoop_nil (fuel : Nat) (alloc : List Nat) (rem idx : Nat) :
    redisLoop fuel alloc [] rem idx = (alloc, rem) := by
  cases fuel with
  | zero => rfl
  | succ f => simp [redisLoop]

theorem spareInit_self (sizes : List Nat) : spareInit sizes sizes = [] := by
  rw [spareInit]
  have hf : ((List.range sizes.length).map
      (fun i => (i, sizes.getD i 0 - sizes.getD i 0))).filter
      (fun p => decide (0 < p.2)) = [] := by
    rw [List.filter_eq_nil_iff]
    intro p hp
    rcases List.mem_map.mp hp with ⟨i, _, he⟩
    rw [← he]
    simp
  rw [hf]
  rfl

theorem getD_map_le (g : Nat → Nat) (l : List Nat) (h : ∀ x, g x ≤ x) (i : Nat) :
    (l.map g).getD i 0 ≤ l.getD i 0 := by
  induction l generalizing i with
  | nil => simp
  | cons x l ih =>
    cases i with
    | zero => exact h x
    | succ i => exact ih i

theorem spareInit_inv (sizes alloc : List Nat)
    (hal : ∀ i, alloc.getD i 0 ≤ sizes.getD i 0) :
    SpareInv sizes alloc (spareInit sizes alloc) := by
  intro pos hpos
  obtain ⟨h1, h2, h3⟩ := spareInit_mem sizes alloc _ (getD_pair_mem _ pos hpos)
  refine ⟨h1, ?_⟩
  rw [h2]
  have := hal ((spareInit sizes alloc).getD pos (0, 0)).1
  omega

theorem alloc0Of_le {α κ : Type} [DecidableEq κ] (f : α → κ) (rows : List α) (n : Nat) :
    ∀ i, (alloc0Of f rows n).getD i 0 ≤ ((buildStrata f rows).map (·.2.length)).getD i 0 :=
  getD_map_le _ _ (fun x => allocFor_le rows.length n x)

theorem alloc0Of_sum_le {α κ : Type} [DecidableEq κ] (f : α → κ) (rows : List α) (n : Nat) :
    (alloc0Of f rows n).sum ≤ rows.length := by
  rw [alloc0Of]
  calc (((buildStrata f rows).map (·.2.length)).map (allocFor rows.length n)).sum
      ≤ ((buildStrata f rows).map (·.2.length)).sum :=
        map_sum_le_of_le _ _ (fun x _ => allocFor_le rows.length n x)
    _ = rows.length := buildStrata_sumLen f rows

set_option maxHeartbeats 1000000 in
theorem finalAlloc_unfold {α κ : Type} [DecidableEq κ] (f : α → κ) (rows : List α) (n : Nat) :
    finalAlloc f rows n = if (alloc0Of f rows n).sum < n then
      (redisLoop ((n - (alloc0Of f rows n).sum + 1) *
          ((spareInit ((buildStrata f rows).map (·.2.length)) (alloc0Of f rows n)).length + 1))
        (alloc0Of f rows n) (spareInit ((buildStrata f rows).map (·.2.length)) (alloc0Of f rows n))
        (n - (alloc0Of f rows n).sum) 0).1
    else alloc0Of f rows n := rfl

theorem finalAlloc_of_ge {α κ : Type} [DecidableEq κ] (f : α → κ) (rows : List α) (n : Nat)
    (h : ¬ (alloc0Of f rows n).sum < n) : finalAlloc f rows n = alloc0Of f rows n := by
  have hfa := finalAlloc_unfold f rows n
  rw [hfa, if_neg h]

theorem alloc0Of_of_total_lt {α κ : Type} [DecidableEq κ] (f : α → κ) (rows : List α) (n : Nat)
    (h : rows.length < n) : alloc0Of f rows n = (buildStrata f rows).map (·.2.length) := by
  rcases Nat.eq_zero_or_pos rows.length with hz | hz
  · have : rows = [] := List.eq_nil_of_length_eq_zero hz
    subst this
    rfl
  · rw [alloc0Of]
    conv_rhs => rw [← List.map_id ((buildStrata f rows).map (·.2.length))]
    refine List.map_congr_left (fun sz _ => ?_)
    exact allocFor_eq_of_lt rows.length n sz hz h

theorem finalAlloc_of_total_lt {α κ : Type} [DecidableEq κ] (f : α → κ) (rows : List α) (n : Nat)
    (h : rows.length < n) : finalAlloc f rows n = (buildStrata f rows).map (·.2.length) := by
  by_cases hs : (alloc0Of f rows n).sum < n
  · have hfa := finalAlloc_unfold f rows n
    rw [hfa, if_pos hs, alloc0Of_of_total_lt f rows n h, spareInit_self, redisLoop_nil]
  · rw [finalAlloc_of_ge f rows n hs, alloc0Of_of_total_lt f rows n h]

set_option maxHeartbeats 1000000 in
theorem finalAlloc_of_lt_ge {α κ : Type} [DecidableEq κ] (f : α → κ) (rows : List α) (n : Nat)
    (hs : (alloc0Of f rows n).sum < n) (hn : n ≤ rows.length) :
    (finalAlloc f rows n).sum = n ∧
    (finalAlloc f rows n).length = (buildStrata f rows).length ∧
    (∀ i, (finalAlloc f rows n).getD i 0 ≤ ((buildStrata f rows).map (·.2.length)).getD i 0) := by
  have hfa := finalAlloc_unfold f rows n
  rw [hfa, if_pos hs]
  have hlen0 : (alloc0Of f rows n).length = ((buildStrata f rows).map (·.2.length)).length := by
    rw [alloc0Of, List.length_map]
  have hle0 := alloc0Of_le f rows n
  have hsnd : ((spareInit ((buildStrata f rows).map (·.2.length)) (alloc0Of f rows n)).map
      (·.2)).sum = ((buildStrata f rows).map (·.2.length)).sum - (alloc0Of f rows n).sum :=
    spareInit_sum _ _ hlen0.symm hle0
  have hrem : n - (alloc0Of f rows n).sum ≤ ((spareInit ((buildStrata f rows).map (·.2.length))
      (alloc0Of f rows n)).map (·.2)).sum := by
    rw [hsnd, buildStrata_sumLen]
    omega
  have hfuel : (n - (alloc0Of f rows n).sum) *
      ((spareInit ((buildStrata f rows).map (·.2.length)) (alloc0Of f rows n)).length + 1) + 1
      ≤ (n - (alloc0Of f rows n).sum + 1) *
      ((spareInit ((buildStrata f rows).map (·.2.length)) (alloc0Of f rows n)).length + 1) := by
    nlinarith
  obtain ⟨h1, h2, h3, h4⟩ := redisLoop_master ((buildStrata f rows).map (·.2.length))
    (n - (alloc0Of f rows n).sum)
    ((n - (alloc0Of f rows n).sum + 1) *
      ((spareInit ((buildStrata f rows).map (·.2.length)) (alloc0Of f rows n)).length + 1))
    (alloc0Of f rows n) (spareInit ((buildStrata f rows).map (·.2.length)) (alloc0Of f rows n)) 0
    hlen0 (spareInit_inv _ _ hle0) (spareInit_keys_nodup _ _) hle0 hrem hfuel
  refine ⟨?_, ?_, h4⟩
  · rw [h2]
    omega
  · rw [h3, hlen0, List.length_map]
theorem drawn_length {α κ : Type} (R : RandOps α) (hR : R.Valid) :
    ∀ (strata : List (κ × List α)) (alloc : List Nat),
    alloc.length = strata.length →
    (∀ i, alloc.getD i 0 ≤ (strata.map (·.2.length)).getD i 0) →
    ((List.zipWith (fun (p : κ × List α) k =>
        if k = 0 then [] else if k < p.2.length then R.sample p.2 k else p.2)
      strata alloc).flatten).length = alloc.sum := by
  intro strata
  induction strata with
  | nil =>
    intro alloc h _
    have : alloc = [] := List.eq_nil_of_length_eq_zero (by simpa using h)
    subst this
    simp
  | cons p strata ih =>
    intro alloc hlen hle
    cases alloc with
    | nil => simp at hlen
    | cons k alloc =>
      simp only [List.zipWith_cons_cons, List.flatten_cons, List.length_append, List.sum_cons]
      have hk : k ≤ p.2.length := by
        have := hle 0
        simpa using this
      have hhead : (if k = 0 then [] else
          if k < p.2.length then R.sample p.2 k else p.2).length = k := by
        by_cases h0 : k = 0
        · simp [h0]
        · by_cases hlt : k < p.2.length
          · rw [if_neg h0, if_pos hlt]
            exact hR.1 p.2 k (Nat.le_of_lt hlt)
          · rw [if_neg h0, if_neg hlt]
            omega
      rw [hhead, ih alloc (by simpa using hlen)
        (fun i => by have := hle (i + 1); simpa using this)]

theorem drawn_full {α κ : Type} (R : RandOps α) :
    ∀ (strata : List (κ × List α)), (∀ p ∈ strata, p.2 ≠ []) →
    List.zipWith (fun (p : κ × List α) k =>
        if k = 0 then [] else if k < p.2.length then R.sample p.2 k else p.2)
      strata (strata.map (·.2.length)) = strata.map (·.2) := by
  intro strata
  induction strata with
  | nil => intro _; rfl
  | cons p strata ih =>
    intro hne
    simp only [List.map_cons, List.zipWith_cons_cons]
    have h0 : ¬ p.2.length = 0 := by
      intro hc
      exact hne p (List.mem_cons_self p strata) (List.eq_nil_of_length_eq_zero hc)
    rw [if_neg h0, if_neg (Nat.lt_irrefl p.2.length), ih (fun q hq => hne q (List.mem_cons_of_mem p hq))]
set_option maxHeartbeats 1000000 in
theorem stratified_sample_unfold {α κ : Type} [DecidableEq α] [DecidableEq κ] (R : RandOps α)
    (f : α → κ) (rows : List α) (n : Nat) :
    stratified_sample R f rows n =
      (R.shuffle (if (drawnOf R f rows n).length < n then
        drawnOf R f rows n ++ R.sample (rows.filter (fun r => decide (r ∉ drawnOf R f rows n)))
          (min (n - (drawnOf R f rows n).length)
            ((rows.filter (fun r => decide (r ∉ drawnOf R f rows n))).length))
      else drawnOf R f rows n)).take n := rfl

theorem stratified_sample_length {α κ : Type} [DecidableEq α] [DecidableEq κ] (R : RandOps α)
    (hR : R.Valid) (f : α → κ) (rows : List α) (n : Nat) :
    (stratified_sample R f rows n).length = min n rows.length := by
  rw [stratified_sample_unfold, List.length_take, hR.2]
  by_cases hs : (alloc0Of f rows n).sum < n
  · by_cases ht : rows.length < n
    · have hfa := finalAlloc_of_total_lt f rows n ht
      have hdrawn : drawnOf R f rows n = ((buildStrata f rows).map (·.2)).flatten := by
        rw [drawnOf, hfa, drawn_full R _ (buildStrata_ne_nil f rows)]
      have hdlen : (drawnOf R f rows n).length = rows.length := by
        rw [hdrawn, List.length_flatten, List.map_map]
        exact buildStrata_sumLen f rows
      have hpool : rows.filter (fun r => decide (r ∉ drawnOf R f rows n)) = [] := by
        rw [List.filter_eq_nil_iff]
        intro r hr
        simp only [decide_eq_true_eq, not_not]
        rw [hdrawn]
        rcases List.mem_flatMap.mp (buildStrata_flat_mem f rows r hr) with ⟨p, hp, hrp⟩
        exact List.mem_flatten.mpr ⟨p.2, List.mem_map.mpr ⟨p, hp, rfl⟩, hrp⟩
      rw [if_pos (by omega : (drawnOf R f rows n).length < n), hpool, List.length_append]
      have hmin : min (n - (drawnOf R f rows n).length) ([] : List α).length = 0 := by
        simp
      rw [hmin, hR.1 [] 0 (by simp), hdlen]
      omega
    · obtain ⟨hsum, hlen, hle⟩ := finalAlloc_of_lt_ge f rows n hs (by omega)
      have hdlen : (drawnOf R f rows n).length = n := by
        rw [drawnOf, drawn_length R hR (buildStrata f rows) (finalAlloc f rows n)
          (by rw [hlen]) hle, hsum]
      rw [if_neg (by omega : ¬ (drawnOf R f rows n).length < n), hdlen]
      omega
  · have hfa := finalAlloc_of_ge f rows n hs
    have hdlen : (drawnOf R f rows n).length = (alloc0Of f rows n).sum := by
      rw [drawnOf, hfa]
      exact drawn_length R hR _ _ (by rw [alloc0Of, List.length_map, List.length_map])
        (alloc0Of_le f rows n)
    rw [if_neg (by omega : ¬ (drawnOf R f rows n).length < n), hdlen]
    have := alloc0Of_sum_le f rows n
    omega
theorem takeOps_valid (α : Type) : (takeOps α).Valid := by
  refine ⟨fun l k hk => ?_, fun l => rfl⟩
  show (l.take k).length = k
  rw [List.length_take]
  omega

/-- **C1**: for every corpus `rows`, stratification function, requested size
`n` and random source satisfying the documented `random.sample`/`shuffle`
contract, `stratified_sample` returns a list of exactly `min n |rows|`
records. -/
theorem claim_C1_sample_size {α κ : Type} [DecidableEq α] [DecidableEq κ] (R : RandOps α)
    (hR : R.Valid) (f : α → κ) (rows : List α) (n : Nat) :
    (stratified_sample R f rows n).length = min n rows.length :=
  stratified_sample_length R hR f rows n

theorem claim_C1_sample_size_witness :
    (stratified_sample (takeOps Row) (default_strata false false) cexRows3 2).length
      = min 2 cexRows3.length :=
  claim_C1_sample_size (takeOps Row) (takeOps_valid Row) (default_strata false false) cexRows3 2

set_option maxRecDepth 10000 in
theorem claim_C6_counterexample :
    (finalAlloc (default_strata false false) cexRows3 1).sum = 3 ∧
    (stratified_sample (takeOps Row) (default_strata false false) cexRows3 1).length = 1 ∧
    (finalAlloc (default_strata false false) cexRows3 1).sum
      ≠ (stratified_sample (takeOps Row) (default_strata false false) cexRows3 1).length := by
  refine ⟨by decide, by decide, by decide⟩
/-- **C6** (amended): the allocation sum matches the returned sample size
whenever the first pass does not already overshoot the request (the
unconditional claim fails: the `max(1, ...)` floor can push the first-pass
sum past `n`, and no pass ever shrinks allocations). -/
theorem claim_C6_alloc_matches {α κ : Type} [DecidableEq α] [DecidableEq κ] (R : RandOps α)
    (hR : R.Valid) (f : α → κ) (rows : List α) (n : Nat)
    (h : (alloc0Of f rows n).sum ≤ n) :
    (finalAlloc f rows n).sum = (stratified_sample R f rows n).length := by
  rw [stratified_sample_length R hR f rows n]
  by_cases hs : (alloc0Of f rows n).sum < n
  · by_cases ht : rows.length < n
    · rw [finalAlloc_of_total_lt f rows n ht]
      have := buildStrata_sumLen f rows
      omega
    · obtain ⟨hsum, _, _⟩ := finalAlloc_of_lt_ge f rows n hs (by omega)
      omega
  · rw [finalAlloc_of_ge f rows n hs]
    have h2 := alloc0Of_sum_le f rows n
    omega

set_option maxRecDepth 2000 in
theorem claim_C6_alloc_matches_witness :
    (alloc0Of (default_strata false false) cexRowsDup 1).sum ≤ 1 ∧
    (finalAlloc (default_strata false false) cexRowsDup 1).sum
      = (stratified_sample (takeOps Row) (default_strata false false) cexRowsDup 1).length :=
  ⟨by decide, claim_C6_alloc_matches (takeOps Row) (takeOps_valid Row)
    (default_strata false false) cexRowsDup 1 (by decide)⟩
/-! ### Resume invariant (`process_full_data`, C2) -/

theorem loadProcessedIds_mem (store : List ItemResult) (x : String) :
    x ∈ loadProcessedIds store ↔ x ≠ "" ∧ ∃ r ∈ store, r.item_id = x := by
  rw [loadProcessedIds]
  have main : ∀ (l : List ItemResult) (acc : List String),
      x ∈ l.foldl (fun acc r =>
          if r.item_id ≠ "" then (if r.item_id ∈ acc then acc else acc ++ [r.item_id]) else acc)
        acc
        ↔ x ∈ acc ∨ (x ≠ "" ∧ ∃ r ∈ l, r.item_id = x) := by
    intro l
    induction l with
    | nil => intro acc; simp
    | cons r l ih =>
      intro acc
      rw [List.foldl_cons]
      by_cases h1 : r.item_id ≠ ""
      · by_cases h2 : r.item_id ∈ acc
        · rw [if_pos h1, if_pos h2, ih acc]
          constructor
          · rintro (h | ⟨hne, r2, hr2, he⟩)
            · exact Or.inl h
            · exact Or.inr ⟨hne, r2, List.mem_cons_of_mem r hr2, he⟩
          · rintro (h | ⟨hne, r2, hr2, he⟩)
            · exact Or.inl h
            · rcases List.mem_cons.mp hr2 with he2 | he2
              · exact Or.inl (he ▸ he2 ▸ h2)
              · exact Or.inr ⟨hne, r2, he2, he⟩
        · rw [if_pos h1, if_neg h2, ih (acc ++ [r.item_id])]
          constructor
          · rintro (h | ⟨hne, r2, hr2, he⟩)
            · rcases List.mem_append.mp h with h | h
              · exact Or.inl h
              · have hx : x = r.item_id := (List.mem_singleton.mp h)
                exact Or.inr ⟨hx ▸ h1, r, List.mem_cons_self r l, hx.symm⟩
            · exact Or.inr ⟨hne, r2, List.mem_cons_of_mem r hr2, he⟩
          · rintro (h | ⟨hne, r2, hr2, he⟩)
            · exact Or.inl (List.mem_append.mpr (Or.inl h))
            · rcases List.mem_cons.mp hr2 with he2 | he2
              · refine Or.inl (List.mem_append.mpr (Or.inr ?_))
                rw [List.mem_singleton, ← he, he2]
              · exact Or.inr ⟨hne, r2, he2, he⟩
      · rw [if_neg h1, ih acc]
        have h0 : r.item_id = "" := by
          by_contra hc
          exact h1 hc
        constructor
        · rintro (h | ⟨hne, r2, hr2, he⟩)
          · exact Or.inl h
          · exact Or.inr ⟨hne, r2, List.mem_cons_of_mem r hr2, he⟩
        · rintro (h | ⟨hne, r2, hr2, he⟩)
          · exact Or.inl h
          · rcases List.mem_cons.mp hr2 with he2 | he2
            · exact absurd (he ▸ he2 ▸ h0) hne
            · exact Or.inr ⟨hne, r2, he2, he⟩
  have h := main store []
  simpa using h

theorem chunksAux_flatten {α : Type} (bs : Nat) (hbs : 0 < bs) :
    ∀ (fuel : Nat) (l : List α), l.length ≤ fuel → (chunksAux bs fuel l).flatten = l := by
  intro fuel
  induction fuel with
  | zero =>
    intro l hl
    have : l = [] := List.eq_nil_of_length_eq_zero (by omega)
    subst this
    rfl
  | succ fuel ih =>
    intro l hl
    cases l with
    | nil => rfl
    | cons x xs =>
      show ((x :: xs).take bs :: chunksAux bs fuel ((x :: xs).drop bs)).flatten = x :: xs
      rw [List.flatten_cons, ih ((x :: xs).drop bs) (by rw [List.length_drop]; simp at hl ⊢; omega),
        List.take_append_drop]

theorem chunks_flatten {α : Type} (bs : Nat) (hbs : 0 < bs) (l : List α) :
    (chunks bs l).flatten = l := by
  rw [chunks, if_neg (by omega : ¬ bs = 0)]
  exact chunksAux_flatten bs hbs l.length l (Nat.le_refl _)

theorem itemIdOf_ne_empty (sha1 : String → String) (hsha : ∀ s, sha1 s ≠ "") (r : Row) :
    itemIdOf sha1 r ≠ "" := by
  rw [itemIdOf]
  match r.id with
  | some s =>
    show (if s = "" then sha1 (codeOf r) else s) ≠ ""
    by_cases hs : s = ""
    · rw [if_pos hs]
      exact hsha _
    · rw [if_neg hs]
      exact hs
  | none => exact hsha _

theorem flatMap_nil_of {α β : Type} (l : List α) (g : α → List β)
    (h : ∀ b ∈ l, g b = []) : l.flatMap g = [] := by
  induction l with
  | nil => rfl
  | cons x l ih =>
    rw [List.flatMap_cons, h x (List.mem_cons_self x l), List.nil_append]
    exact ih (fun b hb => h b (List.mem_cons_of_mem x hb))

theorem batchResults_replicas_zero (sha1 : String → String) (loads : String → Option Jv)
    (oracle : String → String → Nat → ℚ → ApiOutcome) (model : String)
    (temps : List ℚ) (batch : List Row) :
    batchResults sha1 loads oracle model 0 temps batch = [] := by
  rw [batchResults, batchJobs]
  have h : batch.flatMap (fun r => (List.range 0).map
      (fun rep => (itemIdOf sha1 r, codeOf r, rep + 1, tempAt temps rep))) = [] :=
    flatMap_nil_of _ _ (fun b _ => rfl)
  rw [h]
  rfl

theorem batchResults_covers (sha1 : String → String) (loads : String → Option Jv)
    (oracle : String → String → Nat → ℚ → ApiOutcome) (model : String)
    (replicas : Nat) (hrep : 0 < replicas) (temps : List ℚ) (batch : List Row)
    (r : Row) (hr : r ∈ batch) :
    ∃ res ∈ batchResults sha1 loads oracle model replicas temps batch,
      res.item_id = itemIdOf sha1 r := by
  have hjob : (itemIdOf sha1 r, codeOf r, 0 + 1, tempAt temps 0)
      ∈ batchJobs sha1 replicas temps batch := by
    rw [batchJobs]
    exact List.mem_flatMap.mpr ⟨r, hr,
      List.mem_map.mpr ⟨0, List.mem_range.mpr hrep, rfl⟩⟩
  refine ⟨run_one_judgement loads oracle (itemIdOf sha1 r) (codeOf r) model
    (tempAt temps 0) (0 + 1), ?_, rfl⟩
  rw [batchResults]
  refine (pySort_perm resultLe _).mem_iff.mpr ?_
  exact List.mem_map.mpr ⟨(itemIdOf sha1 r, codeOf r, 0 + 1, tempAt temps 0), hjob, rfl⟩

theorem chunks_nil {α : Type} (bs : Nat) : chunks bs ([] : List α) = [] := by
  rw [chunks]
  by_cases h : bs = 0
  · rw [if_pos h]
  · rw [if_neg h]
    rfl
/-- **C2**: an item id already present in the persisted judgements store is
never re-dispatched (no job of any processed batch carries it), and running
the orchestrator a second time over the same corpus and the store produced
by the first run appends zero additional rows. Hypotheses: SHA-1 digests
are non-empty and the batch size is positive (Python raises on
`batch_size <= 0`). -/
theorem claim_C2_resume (sha1 : String → String) (loads : String → Option Jv)
    (oracle : String → String → Nat → ℚ → ApiOutcome) (model : String)
    (replicas : Nat) (temps0 : List ℚ) (bs : Nat)
    (store : List ItemResult) (rows : List Row)
    (hsha : ∀ s, sha1 s ≠ "") (hbs : 0 < bs) :
    (∀ iid, iid ∈ loadProcessedIds store →
      ∀ batch ∈ chunks bs (remainingRows sha1 store rows), ∀ temps : List ℚ,
        ∀ job ∈ batchJobs sha1 replicas temps batch, job.1 ≠ iid) ∧
    process_full_data sha1 loads oracle model replicas temps0 bs
        (process_full_data sha1 loads oracle model replicas temps0 bs store rows) rows
      = process_full_data sha1 loads oracle model replicas temps0 bs store rows := by
  have hpf : ∀ st : List ItemResult,
      process_full_data sha1 loads oracle model replicas temps0 bs st rows
        = st ++ (chunks bs (remainingRows sha1 st rows)).flatMap
            (batchResults sha1 loads oracle model replicas
              (if temps0 = [] then [1/10, 3/10] else temps0)) :=
    fun st => rfl
  constructor
  · intro iid hid batch hbatch temps job hjob
    rcases List.mem_flatMap.mp hjob with ⟨r, hr, hjr⟩
    rcases List.mem_map.mp hjr with ⟨rep, _, he⟩
    have hrmem : r ∈ remainingRows sha1 store rows := by
      have h := List.mem_flatten.mpr ⟨batch, hbatch, hr⟩
      rwa [chunks_flatten bs hbs] at h
    have hnot : itemIdOf sha1 r ∉ loadProcessedIds store := by
      have h := (List.mem_filter.mp hrmem).2
      simpa using h
    have hj1 : job.1 = itemIdOf sha1 r := by rw [← he]
    rw [hj1]
    intro hc
    exact hnot (hc ▸ hid)
  · rw [hpf (process_full_data sha1 loads oracle model replicas temps0 bs store rows)]
    suffices hX : (chunks bs (remainingRows sha1
        (process_full_data sha1 loads oracle model replicas temps0 bs store rows) rows)).flatMap
          (batchResults sha1 loads oracle model replicas
            (if temps0 = [] then [1/10, 3/10] else temps0)) = [] by
      rw [hX, List.append_nil]
    rcases Nat.eq_zero_or_pos replicas with hrep | hrep
    · subst hrep
      exact flatMap_nil_of _ _ (fun b _ => batchResults_replicas_zero sha1 loads oracle model _ b)
    · have hR1 : remainingRows sha1
          (process_full_data sha1 loads oracle model replicas temps0 bs store rows) rows = [] := by
        rw [remainingRows, List.filter_eq_nil_iff]
        intro r hr
        simp only [decide_eq_true_eq, not_not]
        by_cases hr0 : itemIdOf sha1 r ∈ loadProcessedIds store
        · rcases (loadProcessedIds_mem store _).mp hr0 with ⟨hne, q, hq, hqe⟩
          refine (loadProcessedIds_mem _ _).mpr ⟨hne, q, ?_, hqe⟩
          rw [hpf store]
          exact List.mem_append.mpr (Or.inl hq)
        · have hrmem : r ∈ remainingRows sha1 store rows :=
            List.mem_filter.mpr ⟨hr, by simpa using hr0⟩
          have hrfl : r ∈ (chunks bs (remainingRows sha1 store rows)).flatten := by
            rw [chunks_flatten bs hbs]
            exact hrmem
          rcases List.mem_flatten.mp hrfl with ⟨batch, hbatch, hrb⟩
          rcases batchResults_covers sha1 loads oracle model replicas hrep
            (if temps0 = [] then [1/10, 3/10] else temps0) batch r hrb with ⟨res, hres, hresid⟩
          refine (loadProcessedIds_mem _ _).mpr ⟨itemIdOf_ne_empty sha1 hsha r, res, ?_, hresid⟩
          rw [hpf store]
          exact List.mem_append.mpr (Or.inr (List.mem_flatMap.mpr ⟨batch, hbatch, hres⟩))
      rw [hR1, chunks_nil]
      rfl
theorem claim_C2_resume_witness :
    (∀ iid, iid ∈ loadProcessedIds [] →
      ∀ batch ∈ chunks 1 (remainingRows sha1Stub [] cexRowsDup), ∀ temps : List ℚ,
        ∀ job ∈ batchJobs sha1Stub 1 temps batch, job.1 ≠ iid) ∧
    process_full_data sha1Stub loadsNone oracleErr "m" 1 [] 1
        (process_full_data sha1Stub loadsNone oracleErr "m" 1 [] 1 [] cexRowsDup) cexRowsDup
      = process_full_data sha1Stub loadsNone oracleErr "m" 1 [] 1 [] cexRowsDup :=
  claim_C2_resume sha1Stub loadsNone oracleErr "m" 1 [] 1 [] cexRowsDup
    (fun _ => show ("da39a3ee" : String) ≠ "" by decide) (by decide)
/-! ### Replica-row accounting (`process_full_data`, C8) -/

theorem flatten_flatMap {α β : Type} (L : List (List α)) (g : α → List β) :
    L.flatten.flatMap g = L.flatMap (fun b => b.flatMap g) := by
  induction L with
  | nil => rfl
  | cons b L ih => rw [List.flatten_cons, List.flatMap_append, ih, List.flatMap_cons]

theorem flatMap_perm_congr {α β : Type} (l : List α) (g₁ g₂ : α → List β)
    (h : ∀ b ∈ l, (g₁ b).Perm (g₂ b)) : (l.flatMap g₁).Perm (l.flatMap g₂) := by
  induction l with
  | nil => exact List.Perm.refl _
  | cons b l ih =>
    rw [List.flatMap_cons, List.flatMap_cons]
    exact (h b (List.mem_cons_self b l)).append
      (ih (fun b2 hb2 => h b2 (List.mem_cons_of_mem b hb2)))

theorem countP_flatMap {α β : Type} (l : List α) (g : α → List β) (p : β → Bool) :
    (l.flatMap g).countP p = (l.map (fun b => (g b).countP p)).sum := by
  induction l with
  | nil => rfl
  | cons b l ih =>
    rw [List.flatMap_cons, List.countP_append, ih, List.map_cons, List.sum_cons]

theorem countP_const {α : Type} (l : List α) (b : Bool) :
    l.countP (fun _ => b) = if b then l.length else 0 := by
  induction l with
  | nil => simp
  | cons x l ih =>
    rw [List.countP_cons, ih]
    cases b <;> simp

theorem sum_map_ite_countP {α : Type} (l : List α) (p : α → Bool) (c : Nat) :
    (l.map (fun x => if p x then c else 0)).sum = c * l.countP p := by
  induction l with
  | nil => simp
  | cons x l ih =>
    rw [List.map_cons, List.sum_cons, ih, List.countP_cons]
    by_cases hp : p x
    · rw [if_pos hp, if_pos hp]
      ring
    · rw [if_neg hp, if_neg hp]
      ring
theorem batchResults_keys_perm (sha1 : String → String) (loads : String → Option Jv)
    (oracle : String → String → Nat → ℚ → ApiOutcome) (model : String)
    (replicas : Nat) (temps : List ℚ) (b : List Row) :
    ((batchResults sha1 loads oracle model replicas temps b).map resultKey).Perm
      (b.flatMap (fun r => (List.range replicas).map
        (fun rep => (itemIdOf sha1 r, rep + 1)))) := by
  rw [batchResults]
  refine ((pySort_perm resultLe _).map resultKey).trans ?_
  rw [List.map_map]
  have he : (batchJobs sha1 replicas temps b).map (resultKey ∘ fun job =>
      run_one_judgement loads oracle job.1 job.2.1 model job.2.2.2 job.2.2.1)
      = b.flatMap (fun r => (List.range replicas).map
        (fun rep => (itemIdOf sha1 r, rep + 1))) := by
    rw [batchJobs, List.map_flatMap]
    refine congrArg _ (funext fun r => ?_)
    rw [List.map_map]
    rfl
  rw [he]

theorem store_keys_perm (sha1 : String → String) (loads : String → Option Jv)
    (oracle : String → String → Nat → ℚ → ApiOutcome) (model : String)
    (replicas : Nat) (temps : List ℚ) (bs : Nat) (hbs : 0 < bs) (rows : List Row) :
    (((chunks bs rows).flatMap
        (batchResults sha1 loads oracle model replicas temps)).map resultKey).Perm
      (rows.flatMap (fun r => (List.range replicas).map
        (fun rep => (itemIdOf sha1 r, rep + 1)))) := by
  rw [List.map_flatMap]
  refine (flatMap_perm_congr _ _ _ (fun b _ =>
    batchResults_keys_perm sha1 loads oracle model replicas temps b)).trans ?_
  rw [← flatten_flatMap, chunks_flatten bs hbs]

theorem keys_flatMap_nodup (sha1 : String → String) (replicas : Nat) :
    ∀ (rows : List Row), ((rows.map (itemIdOf sha1)).Nodup) →
    (rows.flatMap (fun r => (List.range replicas).map
      (fun rep => (itemIdOf sha1 r, rep + 1)))).Nodup := by
  intro rows
  induction rows with
  | nil => intro _; simp
  | cons r rows ih =>
    intro h
    simp only [List.map_cons, List.nodup_cons] at h
    rw [List.flatMap_cons]
    refine List.Nodup.append ?_ (ih h.2) ?_
    · refine (List.nodup_map_iff_inj_on (List.nodup_range replicas)).mpr ?_
      intro a _ b _ hab
      have h2 := congrArg Prod.snd hab
      simp only at h2
      omega
    · intro x hx1 hx2
      rcases List.mem_map.mp hx1 with ⟨rep, _, he⟩
      rcases List.mem_flatMap.mp hx2 with ⟨r2, hr2, hx2m⟩
      rcases List.mem_map.mp hx2m with ⟨rep2, _, he2⟩
      apply h.1
      have h1 : x.1 = itemIdOf sha1 r := by rw [← he]
      have h2 : x.1 = itemIdOf sha1 r2 := by rw [← he2]
      rw [show itemIdOf sha1 r = itemIdOf sha1 r2 by rw [← h1, h2]]
      exact List.mem_map.mpr ⟨r2, hr2, rfl⟩

theorem remainingRows_empty_store (sha1 : String → String) (rows : List Row) :
    remainingRows sha1 [] rows = rows := by
  rw [remainingRows]
  refine List.filter_eq_self.mpr (fun r _ => ?_)
  simp [loadProcessedIds]
/-- **C8** (amended): over a corpus whose item ids (the `id` field or the
SHA-1 of the code text) are pairwise distinct, a full sweep from an empty
store persists exactly `replicas` rows per corpus item and the replica
identities `(item_id, replica_index)` are unique across the store; with
duplicate item ids in the corpus both parts fail. -/
theorem claim_C8_replica_rows (sha1 : String → String) (loads : String → Option Jv)
    (oracle : String → String → Nat → ℚ → ApiOutcome) (model : String)
    (replicas : Nat) (temps0 : List ℚ) (bs : Nat) (rows : List Row)
    (hbs : 0 < bs) (hids : (rows.map (itemIdOf sha1)).Nodup) :
    ((process_full_data sha1 loads oracle model replicas temps0 bs [] rows).map
      resultKey).Nodup ∧
    ∀ r ∈ rows,
      ((process_full_data sha1 loads oracle model replicas temps0 bs [] rows).filter
        (fun res => res.item_id == itemIdOf sha1 r)).length = replicas := by
  have hpf : process_full_data sha1 loads oracle model replicas temps0 bs [] rows
      = (chunks bs (remainingRows sha1 [] rows)).flatMap
          (batchResults sha1 loads oracle model replicas
            (if temps0 = [] then [1/10, 3/10] else temps0)) := rfl
  rw [hpf, remainingRows_empty_store]
  have hperm := store_keys_perm sha1 loads oracle model replicas
    (if temps0 = [] then [1/10, 3/10] else temps0) bs hbs rows
  constructor
  · exact hperm.nodup_iff.mpr (keys_flatMap_nodup sha1 replicas rows hids)
  · intro r hr
    rw [← List.countP_eq_length_filter]
    have hck : ((chunks bs rows).flatMap (batchResults sha1 loads oracle model replicas
        (if temps0 = [] then [1/10, 3/10] else temps0))).countP
          (fun res => res.item_id == itemIdOf sha1 r)
        = (((chunks bs rows).flatMap (batchResults sha1 loads oracle model replicas
            (if temps0 = [] then [1/10, 3/10] else temps0))).map resultKey).countP
          (fun k => k.1 == itemIdOf sha1 r) := by
      rw [List.countP_map]
      rfl
    rw [hck, hperm.countP_congr (fun x _ => rfl), countP_flatMap]
    have hmapeq : rows.map (fun b => (((List.range replicas).map
          (fun rep => (itemIdOf sha1 b, rep + 1))).countP
            (fun k => k.1 == itemIdOf sha1 r)))
        = rows.map (fun b => if (itemIdOf sha1 b == itemIdOf sha1 r) then replicas else 0) := by
      refine List.map_congr_left (fun b _ => ?_)
      rw [List.countP_map]
      have hc : ((fun k : String × Nat => k.1 == itemIdOf sha1 r)
          ∘ (fun rep : Nat => (itemIdOf sha1 b, rep + 1)))
          = fun _ : Nat => (itemIdOf sha1 b == itemIdOf sha1 r) := rfl
      rw [hc, countP_const, List.length_range]
    rw [hmapeq, sum_map_ite_countP]
    have hcount : rows.countP (fun b => itemIdOf sha1 b == itemIdOf sha1 r) = 1 := by
      have h1 : (rows.map (itemIdOf sha1)).count (itemIdOf sha1 r) = 1 :=
        List.count_eq_one_of_mem hids (List.mem_map.mpr ⟨r, hr, rfl⟩)
      rw [List.count, List.countP_map] at h1
      exact h1
    rw [hcount]
    exact Nat.mul_one replicas
theorem claim_C8_counterexample :
    ((process_full_data sha1Stub loadsNone oracleErr "m" 1 [] 2 [] cexRowsDup).map resultKey)
      = [("x", 1), ("x", 1)] ∧
    ¬ ((process_full_data sha1Stub loadsNone oracleErr "m" 1 [] 2 [] cexRowsDup).map
        resultKey).Nodup ∧
    ((process_full_data sha1Stub loadsNone oracleErr "m" 1 [] 2 [] cexRowsDup).filter
      (fun res => res.item_id == itemIdOf sha1Stub (cexRowsDup.getD 0 ⟨none, none, none, none⟩))).length
      ≠ 1 := by
  refine ⟨rfl, by decide, by decide⟩

theorem claim_C8_replica_rows_witness :
    (cexRows3.map (itemIdOf sha1Stub)).Nodup ∧
    (((process_full_data sha1Stub loadsNone oracleErr "m" 2 [] 2 [] cexRows3).map
      resultKey).Nodup ∧
    ∀ r ∈ cexRows3,
      ((process_full_data sha1Stub loadsNone oracleErr "m" 2 [] 2 [] cexRows3).filter
        (fun res => res.item_id == itemIdOf sha1Stub r)).length = 2) :=
  ⟨by decide, claim_C8_replica_rows sha1Stub loadsNone oracleErr "m" 2 [] 2 cexRows3
    (by decide) (by decide)⟩
/-! ### Line-level loader characterization (C10) -/

theorem jvBeq_iff_of_hashable (v w : Jv) (hv : pyHashable v = true) :
    jvBeq v w = true ↔ v = w := by
  cases v <;> cases w <;> simp_all [jvBeq, pyHashable]

theorem jvInsertSet_mem (acc : List Jv) (v x : Jv) (hv : pyHashable v = true) :
    x ∈ jvInsertSet acc v ↔ x ∈ acc ∨ x = v := by
  rw [jvInsertSet]
  by_cases h : acc.any (jvBeq v)
  · rw [if_pos h]
    rcases List.any_eq_true.mp h with ⟨y, hy, hbeq⟩
    have hvy : v = y := (jvBeq_iff_of_hashable v y hv).mp hbeq
    constructor
    · exact Or.inl
    · rintro (hx | hx)
      · exact hx
      · rw [hx, hvy]
        exact hy
  · rw [if_neg h]
    simp

theorem processLine_mem (loads : String → Option Jv) (acc : List Jv) (line : String)
    (x : Jv) :
    x ∈ processLine loads acc line ↔ x ∈ acc ∨
      (pyTruthy x = true ∧ pyHashable x = true ∧ pyStrip line ≠ "" ∧
        ∃ d, loads (pyStrip line) = some (.obj d) ∧ dictGet d "item_id" = some x) := by
  have he : processLine loads acc line = if pyStrip line = "" then acc else
      match loads (pyStrip line) with
      | none => acc
      | some (.obj d) =>
        (match dictGet d "item_id" with
         | some v => if pyTruthy v then
             (if pyHashable v then jvInsertSet acc v else acc) else acc
         | none => acc)
      | some _ => acc := rfl
  rw [he]
  by_cases hl : pyStrip line = ""
  · rw [if_pos hl]
    constructor
    · exact Or.inl
    · rintro (hx | ⟨_, _, hne, _⟩)
      · exact hx
      · exact absurd hl hne
  · rw [if_neg hl]
    rcases hload : loads (pyStrip line) with _ | jv
    · change x ∈ acc ↔ _
      constructor
      · exact Or.inl
      · rintro (hx | ⟨_, _, _, d, hd, _⟩)
        · exact hx
        · cases hd
    · cases jv with
      | obj d =>
        change x ∈ (match dictGet d "item_id" with
          | some v => if pyTruthy v = true then
              (if pyHashable v = true then jvInsertSet acc v else acc) else acc
          | none => acc) ↔ _
        rcases hget : dictGet d "item_id" with _ | v
        · change x ∈ acc ↔ _
          constructor
          · exact Or.inl
          · rintro (hx | ⟨_, _, _, d2, hd2, hg2⟩)
            · exact hx
            · injection hd2 with hd2
              injection hd2 with hd2
              rw [← hd2, hget] at hg2
              cases hg2
        · change x ∈ (if pyTruthy v = true then
              (if pyHashable v = true then jvInsertSet acc v else acc) else acc) ↔ _
          by_cases ht : pyTruthy v = true
          · by_cases hh : pyHashable v = true
            · rw [if_pos ht, if_pos hh, jvInsertSet_mem acc v x hh]
              constructor
              · rintro (hx | hx)
                · exact Or.inl hx
                · exact Or.inr ⟨hx ▸ ht, hx ▸ hh, hl, d, rfl, hx ▸ hget⟩
              · rintro (hx | ⟨_, _, _, d2, hd2, hg2⟩)
                · exact Or.inl hx
                · refine Or.inr ?_
                  injection hd2 with hd2
                  injection hd2 with hd2
                  rw [← hd2, hget] at hg2
                  injection hg2 with hg2
                  exact hg2.symm
            · rw [if_pos ht, if_neg hh]
              constructor
              · exact Or.inl
              · rintro (hx | ⟨_, hxh, _, d2, hd2, hg2⟩)
                · exact hx
                · injection hd2 with hd2
                  injection hd2 with hd2
                  rw [← hd2, hget] at hg2
                  injection hg2 with hg2
                  rw [← hg2] at hxh
                  exact absurd hxh hh
          · rw [if_neg ht]
            constructor
            · exact Or.inl
            · rintro (hx | ⟨hxt, _, _, d2, hd2, hg2⟩)
              · exact hx
              · injection hd2 with hd2
                injection hd2 with hd2
                rw [← hd2, hget] at hg2
                injection hg2 with hg2
                rw [← hg2] at hxt
                exact absurd hxt ht
      | null =>
        change x ∈ acc ↔ _
        constructor
        · exact Or.inl
        · rintro (hx | ⟨_, _, _, d2, hd2, _⟩)
          · exact hx
          · injection hd2 with hd2
            cases hd2
      | bool b =>
        change x ∈ acc ↔ _
        constructor
        · exact Or.inl
        · rintro (hx | ⟨_, _, _, d2, hd2, _⟩)
          · exact hx
          · injection hd2 with hd2
            cases hd2
      | num q =>
        change x ∈ acc ↔ _
        constructor
        · exact Or.inl
        · rintro (hx | ⟨_, _, _, d2, hd2, _⟩)
          · exact hx
          · injection hd2 with hd2
            cases hd2
      | str s =>
        change x ∈ acc ↔ _
        constructor
        · exact Or.inl
        · rintro (hx | ⟨_, _, _, d2, hd2, _⟩)
          · exact hx
          · injection hd2 with hd2
            cases hd2
      | arr l =>
        change x ∈ acc ↔ _
        constructor
        · exact Or.inl
        · rintro (hx | ⟨_, _, _, d2, hd2, _⟩)
          · exact hx
          · injection hd2 with hd2
            cases hd2
theorem load_processed_mem (loads : String → Option Jv) (lines : List String) (x : Jv) :
    x ∈ load_processed_ids_from_judgements loads (some lines) ↔
      pyTruthy x = true ∧ pyHashable x = true ∧ ∃ line ∈ lines, pyStrip line ≠ "" ∧
        ∃ d, loads (pyStrip line) = some (.obj d) ∧ dictGet d "item_id" = some x := by
  show x ∈ lines.foldl (processLine loads) [] ↔ _
  have main : ∀ (ls : List String) (acc : List Jv),
      x ∈ ls.foldl (processLine loads) acc ↔ x ∈ acc ∨
        (pyTruthy x = true ∧ pyHashable x = true ∧ ∃ line ∈ ls, pyStrip line ≠ "" ∧
          ∃ d, loads (pyStrip line) = some (.obj d) ∧ dictGet d "item_id" = some x) := by
    intro ls
    induction ls with
    | nil => intro acc; simp
    | cons line ls ih =>
      intro acc
      rw [List.foldl_cons, ih (processLine loads acc line), processLine_mem loads acc line x]
      constructor
      · rintro ((hx | ⟨ht, hh, hq⟩) | ⟨ht, hh, l2, hl2, hq⟩)
        · exact Or.inl hx
        · exact Or.inr ⟨ht, hh, line, List.mem_cons_self line ls, hq⟩
        · exact Or.inr ⟨ht, hh, l2, List.mem_cons_of_mem line hl2, hq⟩
      · rintro (hx | ⟨ht, hh, l2, hl2, hq⟩)
        · exact Or.inl (Or.inl hx)
        · rcases List.mem_cons.mp hl2 with he | he
          · exact Or.inl (Or.inr ⟨ht, hh, he ▸ hq⟩)
          · exact Or.inr ⟨ht, hh, l2, he, hq⟩
  simpa using main lines []

/-- **C10** (amended): the loader is total (never raises), returns the empty
set for a missing file, and otherwise returns exactly the truthy *and
hashable* `item_id` values of the JSON-parseable non-blank lines: a truthy
but unhashable `item_id` (a list or a dict) makes `set.add` raise
`TypeError`, which the per-line `except` swallows, so the value is silently
skipped — the spec's "exactly the truthy item_id values" overstates it. -/
theorem claim_C10_loader (loads : String → Option Jv) (file : Option (List String)) :
    (file = none → load_processed_ids_from_judgements loads file = []) ∧
    (∀ lines, file = some lines → ∀ x : Jv,
      (x ∈ load_processed_ids_from_judgements loads file ↔
        pyTruthy x = true ∧ pyHashable x = true ∧ ∃ line ∈ lines, pyStrip line ≠ "" ∧
          ∃ d, loads (pyStrip line) = some (.obj d) ∧ dictGet d "item_id" = some x)) := by
  constructor
  · intro h
    rw [h]
    rfl
  · intro lines h x
    rw [h]
    exact load_processed_mem loads lines x

theorem claim_C10_counterexample :
    loadsCex (pyStrip "\x7b\x22item_id\x22: [1]\x7d")
        = some (.obj [("item_id", .arr [.num 1])]) ∧
    dictGet [("item_id", Jv.arr [Jv.num 1])] "item_id" = some (.arr [.num 1]) ∧
    pyTruthy (.arr [.num 1]) = true ∧
    load_processed_ids_from_judgements loadsCex (some ["\x7b\x22item_id\x22: [1]\x7d"]) = [] :=
  ⟨rfl, rfl, rfl, rfl⟩

theorem claim_C10_loader_witness :
    load_processed_ids_from_judgements loadsCex none = [] ∧
    Jv.arr [Jv.num 1] ∉ load_processed_ids_from_judgements loadsCex
        (some ["\x7b\x22item_id\x22: [1]\x7d"]) := by
  refine ⟨(claim_C10_loader loadsCex none).1 rfl, fun hmem => ?_⟩
  have h := ((claim_C10_loader loadsCex
      (some ["\x7b\x22item_id\x22: [1]\x7d"])).2 ["\x7b\x22item_id\x22: [1]\x7d"] rfl
      (Jv.arr [Jv.num 1])).mp hmem
  exact absurd h.2.1 (by decide)

/-- C7: `validate_judgement` succeeds only when the `decision` field
canonicalizes (case-insensitively, after stripping) to one of the three
enum values; on success the scores are clamped into `[0,5]`, the confidence
into `[0,1]`, and the rationale is truncated to at most 400 characters; a
non-enum decision, or a `labels` value that is present but neither null nor
a list, makes validation fail (return no judgement). -/
theorem claim_C7_validate (v : Jv) :
    (∀ j, validate_judgement v = some j →
      (∃ d x, v = Jv.obj d ∧ dictGet d "decision" = some x ∧ canonDecision x ∈ DECISIONS ∧
        j.decision = canonDecision x) ∧
      0 ≤ j.arkts_score ∧ j.arkts_score ≤ 5 ∧
      0 ≤ j.quality_score ∧ j.quality_score ≤ 5 ∧
      0 ≤ j.confidence ∧ j.confidence ≤ 1 ∧
      j.rationale.length ≤ 400) ∧
    (∀ d x, v = Jv.obj d → dictGet d "decision" = some x → canonDecision x ∉ DECISIONS →
      validate_judgement v = none) ∧
    (∀ d lv, v = Jv.obj d → dictGet d "labels" = some lv → lv ≠ Jv.null →
      (∀ xs, lv ≠ Jv.arr xs) → validate_judgement v = none) := by
  refine ⟨fun j h => validate_some_spec v j h, ?_, ?_⟩
  · rintro d x rfl hx hd
    exact validate_bad_decision d x hx hd
  · rintro d lv rfl hl h1 h2
    exact validate_bad_labels d lv hl h1 h2

/-- Witness for C7: a concrete object with decision `" keep "` and an
out-of-range score validates to a clamped judgement, and a concrete object
with decision `"drop"` fails validation. -/
theorem claim_C7_validate_witness :
    (validate_judgement (Jv.obj [("decision", Jv.str " keep "), ("arkts_score", Jv.num 9)])
        = some ⟨"KEEP", [], 5, 0, 0, ""⟩) ∧
    ((0:ℚ) ≤ 5 ∧ (5:ℚ) ≤ 5) ∧
    validate_judgement (Jv.obj [("decision", Jv.str "drop")]) = none := by
  have h : validate_judgement (Jv.obj [("decision", Jv.str " keep "), ("arkts_score", Jv.num 9)])
      = some ⟨"KEEP", [], 5, 0, 0, ""⟩ := by rfl
  refine ⟨h, ?_, ?_⟩
  · have h1 := ((claim_C7_validate _).1 _ h).2.1
    have h2 := ((claim_C7_validate _).1 _ h).2.2.1
    exact ⟨by simpa using h1, by simpa using h2⟩
  · exact (claim_C7_validate _).2.1 _ (Jv.str "drop") rfl rfl (by decide)

/-- C4: whenever no JSON object can be extracted and validated from the raw
judge text, the success branch of `run_one_judgement` produces exactly the
`PARSE_ERROR` fallback judgement (decision `KEEP_WITH_TAG`, label
`PARSE_ERROR`, scores 3.0/3.0, confidence 0.3 — in particular at most 0.3);
the judging path is a total function, so it never raises. -/
theorem claim_C4_parse_error_fallback (loads : String → Option Jv) (raw : String)
    (h : ∀ o, extract_json_object loads raw = some o → pyTruthy o = true →
      validate_judgement o = none) :
    judgeFromText loads raw = parseErrorJudgement ∧
    judgeFromText loads raw =
      ⟨"KEEP_WITH_TAG", ["PARSE_ERROR"], 3, 3, 3/10, "Failed to parse model JSON"⟩ ∧
    (judgeFromText loads raw).confidence ≤ 3/10 := by
  have hmain : judgeFromText loads raw = parseErrorJudgement := by
    simp only [judgeFromText]
    rcases he : extract_json_object loads raw with _ | o
    · rfl
    · by_cases ht : pyTruthy o
      · simp [ht, h o he ht]
      · simp [ht]
  refine ⟨hmain, hmain, ?_⟩
  rw [hmain]
  norm_num [parseErrorJudgement]

/-- Witness for C4: plain prose containing no braces yields the fallback. -/
theorem claim_C4_witness :
    judgeFromText loadsNone "the model replied in prose" = parseErrorJudgement :=
  (claim_C4_parse_error_fallback loadsNone "the model replied in prose"
    (fun o ho _ => by
      rw [show extract_json_object loadsNone "the model replied in prose" = none from rfl] at ho
      exact absurd ho (by simp))).1
